import Mathlib

/-!
# Verification of the file-organizer plan execution and backup/revert engine

Shallow embedding of `src/organize.py` (plan validation, manifest creation,
move execution) and `src/backup.py` (revert, empty-folder cleanup, manifest
archiving) of the `jonessis331/file-organizer` repository, together with
theorems settling the frozen claims about that code.

Modelling conventions:
* Paths relative to the organization root are lists of components
  (`pathlib` division splits on `/`).  A path exists when it is a key of the
  association-list filesystem or a proper ancestor of a key (implicit
  directories).
* File contents are abstract natural numbers; SHA-256 is modelled as an
  injective function on contents.
* `datetime.now()` is modelled by a counter in the state which every call
  reads and increments; the formatted timestamp is its decimal rendering.
* The tool's own `data/` directory (`backup_manifest.json`, archives,
  `organization_results.json`) is modelled as a separate `Store`, not as part
  of the organized tree.
* Python exceptions that escape a function are modelled with `Except Unit`;
  exceptions swallowed by `try`/`except` blocks in the source are handled at
  the matching place in the model.
-/

namespace FileOrganizer

/-- A path relative to the root directory, as a list of components. -/
abbrev FPath := List String

/-- Split a character list at slashes into raw segments. -/
def splitSlash : List Char → List Char → List String
  | [], acc => [String.mk acc.reverse]
  | c :: cs, acc =>
      if c = '/' then String.mk acc.reverse :: splitSlash cs []
      else splitSlash cs (c :: acc)

/-- `root / s` in `pathlib`: split on slashes, dropping empty components. -/
def splitPath (s : String) : FPath :=
  (splitSlash s.data []).filter (fun c => c ≠ "")

/-- Render a relative path back to a string (used in issue/error messages). -/
def joinPath (p : FPath) : String := String.intercalate "/" p

/-- A filesystem entry: a regular file with abstract content, size and
modification time, or a directory. -/
inductive Entry where
  | file (data : Nat) (size : Nat) (mtime : Nat)
  | dir
deriving DecidableEq, Repr

/-- The organized tree: association list from root-relative paths to entries. -/
abbrev FS := List (FPath × Entry)

/-- The entry recorded at exactly path `p`, if any. -/
def entryAt (fs : FS) (p : FPath) : Option Entry :=
  (fs.find? (fun kv => kv.1 == p)).map Prod.snd

/-- `Path.exists()`: `p` is a key or an ancestor of a key (implicit directory). -/
def pexists (fs : FS) (p : FPath) : Bool :=
  fs.any (fun kv => p.isPrefixOf kv.1)

/-- `Path.is_file()`. -/
def isFileAt (fs : FS) (p : FPath) : Bool :=
  match entryAt fs p with
  | some (.file _ _ _) => true
  | _ => false

/-- `Path.is_dir()`: an explicit directory entry or an implicit ancestor. -/
def isDirAt (fs : FS) (p : FPath) : Bool :=
  match entryAt fs p with
  | some .dir => true
  | some (.file _ _ _) => false
  | none => pexists fs p

/-- Content of the file at `p`, if a file is recorded there. -/
def dataAt (fs : FS) (p : FPath) : Option Nat :=
  match entryAt fs p with
  | some (.file d _ _) => some d
  | _ => none

/-- `stat().st_size` (directories are given size 0). -/
def statSize (fs : FS) (p : FPath) : Nat :=
  match entryAt fs p with
  | some (.file _ s _) => s
  | _ => 0

/-- `stat().st_mtime` (directories are given mtime 0). -/
def statMtime (fs : FS) (p : FPath) : Nat :=
  match entryAt fs p with
  | some (.file _ _ m) => m
  | _ => 0

/-- All nonempty ancestors of `p`, shortest first, ending with `p` itself. -/
def ancestors (p : FPath) : List FPath :=
  (List.range p.length).map (fun k => p.take (k + 1))

/-- Create each directory of a chain in order, skipping the ones that exist
and raising when a regular file occupies one of them. -/
def mkdirsChain (fs : FS) : List FPath → Except Unit FS
  | [] => .ok fs
  | q :: rest =>
      match entryAt fs q with
      | some .dir => mkdirsChain fs rest
      | some (.file _ _ _) => .error ()
      | none =>
          if pexists fs q then mkdirsChain fs rest
          else mkdirsChain (fs ++ [(q, Entry.dir)]) rest

/-- `os.makedirs(p, exist_ok=True)`: create every missing ancestor directory;
raise when a regular file occupies one of them. -/
def makedirs (fs : FS) (p : FPath) : Except Unit FS :=
  mkdirsChain fs (ancestors p)

/-- `Path.parent` of a relative path. -/
def parentDir (p : FPath) : FPath := p.dropLast

/-- Final component of a path (`Path.name`). -/
def lastComponent (p : FPath) : String := p.getLastD ""

/-- `pathlib` stem/suffix split of a file name: the name splits at the last
dot only when that dot is neither leading nor trailing
(`0 < name.rfind('.') < len(name) - 1`). -/
def splitExt (name : String) : String × String :=
  let cs := name.data
  match cs.reverse.findIdx? (fun c => c = '.') with
  | none => (name, "")
  | some rIdx =>
      let i := cs.length - 1 - rIdx
      if 0 < i ∧ i < cs.length - 1 then (String.mk (cs.take i), String.mk (cs.drop i))
      else (name, "")

/-- `shutil.move(src, dst)`: when `dst` is an existing directory the source is
moved inside it; otherwise the source subtree is re-rooted at `dst`,
overwriting (POSIX `rename` semantics) whatever single entry was at `dst`. -/
def shutil_move (fs : FS) (src dst : FPath) : FS :=
  let realDst := if isDirAt fs dst then dst ++ [lastComponent src] else dst
  let moved := fs.filterMap
    (fun kv =>
      if src.isPrefixOf kv.1 then some (realDst ++ kv.1.drop src.length, kv.2)
      else none)
  let rest := fs.filter
    (fun kv => !(src.isPrefixOf kv.1) && !(kv.1 == realDst))
  rest ++ moved

/-- Does `p` have a strict descendant among the keys (`any(p.iterdir())`)? -/
def hasChildren (fs : FS) (p : FPath) : Bool :=
  fs.any (fun kv => p.isPrefixOf kv.1 && !(kv.1 == p))

/-- One step of `cleanup_empty_folders`: `folder.rmdir()` guarded by
`folder_path.exists() and not any(folder_path.iterdir())`, errors swallowed.
Returns the new filesystem and whether a directory was removed. -/
def rmdirIfEmpty (fs : FS) (p : FPath) : FS × Bool :=
  if entryAt fs p = some Entry.dir && !(hasChildren fs p) then
    (fs.filter (fun kv => !(kv.1 == p)), true)
  else (fs, false)

/-- Stable insertion into a list sorted by depth, deepest first. -/
def insertByDepth (x : FPath) : List FPath → List FPath
  | [] => [x]
  | y :: ys => if y.length ≤ x.length then x :: y :: ys else y :: insertByDepth x ys

/-- Stable sort by `len(p.parts)` descending, as
`sort(key=lambda p: len(p.parts), reverse=True)`. -/
def sortDeepestFirst (l : List FPath) : List FPath := l.foldr insertByDepth []

/-- `backup.cleanup_empty_folders(root, created_folders)`: sort the recorded
folders deepest first and remove those that are now empty, counting removals. -/
def cleanup_empty_folders (fs : FS) (created : List String) : FS × Nat :=
  let paths := sortDeepestFirst (created.map splitPath)
  paths.foldl
    (fun acc q =>
      let r := rmdirIfEmpty acc.1 q
      (r.1, acc.2 + (if r.2 then 1 else 0)))
    (fs, 0)

/-- SHA-256 on abstract contents, modelled as an injective function. -/
def sha256 (data : Nat) : Nat := data

/-- `calculate_file_hash`: hash of the file's content; `None` when opening
fails (missing path or directory). -/
def calculate_file_hash (fs : FS) (p : FPath) : Option Nat :=
  match entryAt fs p with
  | some (.file d _ _) => some (sha256 d)
  | _ => none

/-- `Config.BACKUP_HASH_SIZE_LIMIT` from `backend/config/settings.py`:
"Only hash files < 10MB". -/
def BACKUP_HASH_SIZE_LIMIT : Nat := 10 * 1024 * 1024

/-- One move of a plan; JSON fields may be absent. -/
structure Move where
  file : Option String
  relative_path : Option String
  new_path : Option String
  reason : Option String
deriving DecidableEq, Repr

/-- An externally supplied reorganization plan; keys may be absent. -/
structure Plan where
  folders : Option (List String)
  moves : Option (List Move)
deriving DecidableEq, Repr

/-- Resolve the current location of a move's source:
`root / move["relative_path"]` when present, else `root / move["file"]`
(a `KeyError` when both are absent). -/
def resolveSource (m : Move) : Except Unit FPath :=
  match m.relative_path with
  | some rp => .ok (splitPath rp)
  | none =>
      match m.file with
      | some f => .ok (splitPath f)
      | none => .error ()

/-- One record of `original_state` in the backup manifest.  The JSON stores
path strings; they are modelled as the resolved root-relative paths. -/
structure FileRecord where
  original_path : FPath
  new_path : FPath
  file_hash : Option Nat
  size : Nat
  modified : Nat
deriving DecidableEq, Repr

/-- The backup manifest written to `data/backup_manifest.json`
(`plan_summary` is flattened into the last two fields). -/
structure Manifest where
  timestamp : Nat
  root_path : String
  original_state : List FileRecord
  total_moves : Nat
  folders_created : List String
deriving DecidableEq, Repr

/-- The record written to `data/organization_results.json`. -/
structure ExecResultRec where
  timestamp : Nat
  successful_moves : Nat
  failed_moves : List (String × String)
  folders_created : List String
deriving DecidableEq, Repr

/-- The tool's `data/` directory: the active manifest file, the archive
directory (files keyed by the timestamp embedded in their name), and the
results file. -/
structure Store where
  manifest : Option Manifest
  archives : List (Nat × Manifest)
  results : Option ExecResultRec
deriving DecidableEq, Repr

/-- Whole-world state: the organized tree, the tool's data directory, and the
clock read by `datetime.now()`. -/
structure St where
  fs : FS
  store : Store
  clock : Nat
deriving DecidableEq, Repr

/-- Events corresponding to the progress output and mutations of a run. -/
inductive Ev where
  | wroteManifest (m : Manifest)
  | createdFolder (f : String) (dry : Bool)
  | renamedConflict (dst renamed : FPath)
  | movedFile (src : FPath) (newPathField : String)
  | failedMove (file err : String)
  | alreadyReverted (orig : FPath)
  | integrityWarning (p : FPath)
  | conflictBackedUp (orig backup : FPath)
  | revertedFile (src orig : FPath)
  | failedRevert (file err : String)
  | archivedManifest (ts : Nat)
deriving DecidableEq, Repr

abbrev Trace := List Ev

/-! ## `organize.validate_plan` -/

/-- Issue text `Move i: Missing required field 'f'`. -/
def missingFieldIssue (i : Nat) (f : String) : String :=
  "Move " ++ toString i ++ ": Missing required field '" ++ f ++ "'"

/-- Issue text `Move i: Source file not found: <abs path>`. -/
def missingSourceIssue (root : String) (i : Nat) (src : FPath) : String :=
  "Move " ++ toString i ++ ": Source file not found: " ++ root ++ "/" ++ joinPath src

/-- Issue text `Move i: Duplicate destination: <dest>`. -/
def duplicateDestIssue (i : Nat) (dest : String) : String :=
  "Move " ++ toString i ++ ": Duplicate destination: " ++ dest

/-- The three required-field checks of one move, in source order. -/
def fieldIssues (i : Nat) (m : Move) : List String :=
  (if m.file.isNone then [missingFieldIssue i "file"] else []) ++
  (if m.new_path.isNone then [missingFieldIssue i "new_path"] else []) ++
  (if m.reason.isNone then [missingFieldIssue i "reason"] else [])

/-- The loop of `validate_plan`, carrying the `destinations` dict
(`new_path → index`, latest index kept).  Accessing `move["file"]` of a move
with neither `file` nor `relative_path` raises a `KeyError`, losing every
issue collected so far. -/
def validateMoves (fs : FS) (root : String) :
    List Move → Nat → List (String × Nat) → Except Unit (List String)
  | [], _, _ => .ok []
  | mv :: rest, i, seen =>
      match resolveSource mv with
      | .error e => .error e
      | .ok src =>
          let srcIssue := if pexists fs src then [] else [missingSourceIssue root i src]
          let destStr := mv.new_path.getD ""
          let dupIssue :=
            if (seen.lookup destStr).isSome then [duplicateDestIssue i destStr] else []
          match validateMoves fs root rest (i + 1) ((destStr, i) :: seen) with
          | .error e => .error e
          | .ok restIssues => .ok (fieldIssues i mv ++ srcIssue ++ dupIssue ++ restIssues)

/-- `organize.validate_plan(plan, root_path)`. -/
def validate_plan (fs : FS) (root : String) (plan : Plan) : Except Unit (List String) :=
  match plan.moves with
  | none => .ok ["Missing 'moves' key in plan"]
  | some moves => validateMoves fs root moves 0 []

/-! ## `organize.create_backup_manifest` -/

/-- The body of the manifest loop for one move whose source exists:
hash only when the source is a regular file (no size threshold is applied). -/
def recordFor (fs : FS) (src : FPath) (newPathField : String) : FileRecord :=
  { original_path := src
    new_path := splitPath newPathField
    file_hash := if isFileAt fs src then calculate_file_hash fs src else none
    size := statSize fs src
    modified := statMtime fs src }

/-- `original_state` of the manifest: one record per move whose resolved
source exists at snapshot time; moves with a missing source contribute
nothing.  `move["new_path"]` is only read for recorded moves. -/
def manifestRecords (fs : FS) : List Move → Except Unit (List FileRecord)
  | [] => .ok []
  | mv :: rest =>
      match resolveSource mv with
      | .error e => .error e
      | .ok src =>
          if pexists fs src then
            match mv.new_path with
            | none => .error ()
            | some np =>
                match manifestRecords fs rest with
                | .error e => .error e
                | .ok restRecs => .ok (recordFor fs src np :: restRecs)
          else manifestRecords fs rest

/-- `organize.create_backup_manifest(root_path, plan)`: compute the manifest
(consuming one clock tick for its timestamp) and persist it to
`data/backup_manifest.json` before returning. -/
def create_backup_manifest (st : St) (root : String) (plan : Plan) :
    Except Unit (St × Manifest) :=
  match manifestRecords st.fs (plan.moves.getD []) with
  | .error e => .error e
  | .ok recs =>
      let m : Manifest :=
        { timestamp := st.clock
          root_path := root
          original_state := recs
          total_moves := (plan.moves.getD []).length
          folders_created := plan.folders.getD [] }
      .ok
        ({ st with
            store := { st.store with manifest := some m }
            clock := st.clock + 1 },
          m)

/-! ## `organize.perform_file_moves` -/

/-- Conflict rename on execution: `f"{dest.stem}_{timestamp}{dest.suffix}"`
inside the destination's directory. -/
def timestampedDest (dst : FPath) (t : Nat) : FPath :=
  let se := splitExt (lastComponent dst)
  parentDir dst ++ [se.1 ++ "_" ++ toString t ++ se.2]

/-- Conflict rename on revert:
`f"{original_path.stem}_conflict_{timestamp}{original_path.suffix}"`. -/
def conflictBackupDest (p : FPath) (t : Nat) : FPath :=
  let se := splitExt (lastComponent p)
  parentDir p ++ [se.1 ++ "_conflict_" ++ toString t ++ se.2]

/-- The folder-creation loop of `perform_file_moves`: create each plan folder
that does not yet exist (skipping the `os.makedirs` in dry-run) and record it
in the `folders_created` set.  A `makedirs` failure here is not caught. -/
def execFoldersLoop (dry : Bool) :
    St → List String → List String → Trace → Except Unit (St × List String × Trace)
  | st, [], created, tr => .ok (st, created, tr)
  | st, f :: rest, created, tr =>
      let fp := splitPath f
      if pexists st.fs fp then execFoldersLoop dry st rest created tr
      else
        match (if dry then Except.ok st.fs else makedirs st.fs fp) with
        | .error _ => .error ()
        | .ok fs' =>
            execFoldersLoop dry { st with fs := fs' } rest
              (if created.contains f then created else created ++ [f])
              (tr ++ [Ev.createdFolder f dry])

/-- The `try` body of the move loop for one move.  Returns the new state, the
reported events, and `some (file, error)` when the move failed.  Note the
conflict branch condition `dest.exists() and not dry_run`: in dry-run the
conflict rename is neither simulated nor reported. -/
def execMoveStep (root : String) (dry : Bool) (st : St) (mv : Move) :
    St × Trace × Option (String × String) :=
  match resolveSource mv with
  | .error _ =>
      (st, [Ev.failedMove (mv.file.getD "unknown") "'file'"],
        some (mv.file.getD "unknown", "'file'"))
  | .ok src =>
      match mv.new_path with
      | none =>
          (st, [Ev.failedMove (mv.file.getD "unknown") "'new_path'"],
            some (mv.file.getD "unknown", "'new_path'"))
      | some nps =>
          let dst := splitPath nps
          if !(pexists st.fs src) then
            (st,
              [Ev.failedMove (root ++ "/" ++ joinPath src) "Source file not found"],
              some (root ++ "/" ++ joinPath src, "Source file not found"))
          else
            match (if dry then Except.ok st.fs else makedirs st.fs (parentDir dst)) with
            | .error _ =>
                (st, [Ev.failedMove (mv.file.getD "unknown") "makedirs failed"],
                  some (mv.file.getD "unknown", "makedirs failed"))
            | .ok fs1 =>
                if pexists fs1 dst && !dry then
                  let dst' := timestampedDest dst st.clock
                  let fs2 := shutil_move fs1 src dst'
                  ({ st with fs := fs2, clock := st.clock + 1 },
                    [Ev.renamedConflict dst dst', Ev.movedFile src nps], none)
                else
                  let fs2 := if dry then fs1 else shutil_move fs1 src dst
                  ({ st with fs := fs2 }, [Ev.movedFile src nps], none)

/-- The move loop of `perform_file_moves`: best-effort over all moves,
counting successes and collecting per-move failures. -/
def execMovesLoop (root : String) (dry : Bool) :
    St → List Move → St × Trace × Nat × List (String × String)
  | st, [] => (st, [], 0, [])
  | st, mv :: rest =>
      let (st1, tr1, failed) := execMoveStep root dry st mv
      let (st2, tr2, n, fails) := execMovesLoop root dry st1 rest
      (st2, tr1 ++ tr2, (if failed.isNone then 1 else 0) + n, failed.toList ++ fails)

/-- Everything `perform_file_moves` does after the manifest step: folder
creation, the move loop, and (outside dry-run) persisting
`organization_results.json`. -/
def execAfterManifest (root : String) (st : St) (plan : Plan) (dry : Bool) :
    St × Trace × Except Unit (Bool × ExecResultRec) :=
  match execFoldersLoop dry st (plan.folders.getD []) [] [] with
  | .error _ => (st, [], .error ())
  | .ok (st1, created, tr1) =>
      let (st2, tr2, n, fails) := execMovesLoop root dry st1 (plan.moves.getD [])
      let res : ExecResultRec :=
        { timestamp := st2.clock
          successful_moves := n
          failed_moves := fails
          folders_created := created }
      let st3 :=
        if dry then st2
        else
          { st2 with
              clock := st2.clock + 1
              store := { st2.store with results := some res } }
      (st3, tr1 ++ tr2, .ok (decide (0 < n), res))

/-- Result of `perform_file_moves`: validation refusal (returns `False`), or
completion with the returned boolean `successful_moves > 0`. -/
inductive PerformOut where
  | invalid (issues : List String)
  | done (returned : Bool) (res : ExecResultRec)
deriving DecidableEq, Repr

/-- `organize.perform_file_moves(root_path, plan, dry_run)`. -/
def perform_file_moves (root : String) (st : St) (plan : Plan) (dry : Bool) :
    St × Trace × Except Unit PerformOut :=
  match validate_plan st.fs root plan with
  | .error _ => (st, [], .error ())
  | .ok issues =>
      if issues = [] then
        if dry then
          let (st', tr, r) := execAfterManifest root st plan true
          (st', tr, r.map (fun x => PerformOut.done x.1 x.2))
        else
          match create_backup_manifest st root plan with
          | .error _ => (st, [], .error ())
          | .ok (st1, m) =>
              let (st2, tr, r) := execAfterManifest root st1 plan false
              (st2, Ev.wroteManifest m :: tr, r.map (fun x => PerformOut.done x.1 x.2))
      else (st, [], .ok (.invalid issues))

/-! ## `backup.revert_organization` -/

/-- `backup.verify_file_integrity(filepath, expected_hash)`. -/
def verify_file_integrity (fs : FS) (p : FPath) (expected : Option Nat) : Bool :=
  if !(pexists fs p) || expected.isNone then false
  else calculate_file_hash fs p == expected

/-- Which manifest file a revert reads: the active
`data/backup_manifest.json` or an archived copy (re-pointing at the archive
path). -/
inductive MSrc where
  | main
  | archived (ts : Nat)
deriving DecidableEq, Repr

/-- Content of the manifest file designated by `src`, if present. -/
def storeAt (s : Store) : MSrc → Option Manifest
  | .main => s.manifest
  | .archived t => s.archives.lookup t

/-- Remove the manifest file designated by `src`. -/
def storeRemove (s : Store) : MSrc → Store
  | .main => { s with manifest := none }
  | .archived t => { s with archives := s.archives.filter (fun kv => !(kv.1 == t)) }

/-- `backup.archive_manifest(manifest_file)`: move the manifest file into the
archive directory under a timestamped name (`shutil.move` overwrites an
archive file already carrying that exact name).  Returns the archive key. -/
def archive_manifest (st : St) (src : MSrc) : Except Unit (St × Nat) :=
  match storeAt st.store src with
  | none => .error ()
  | some m =>
      let s1 := storeRemove st.store src
      .ok
        ({ st with
            clock := st.clock + 1
            store :=
              { s1 with
                  archives :=
                    (st.clock, m) :: s1.archives.filter (fun kv => !(kv.1 == st.clock)) } },
          st.clock)

/-- The `try` body of the revert loop for one manifest record.  Returns the
new state, events, the success increment, failures and integrity warnings. -/
def revertRecordStep (root : String) (verify : Bool) (st : St) (r : FileRecord) :
    St × Trace × Nat × List (String × String) × List (String × String) :=
  let current := r.new_path
  let orig := r.original_path
  if !(pexists st.fs current) then
    if pexists st.fs orig then (st, [Ev.alreadyReverted orig], 1, [], [])
    else
      (st, [Ev.failedRevert (joinPath current) "File not found in current location"],
        0, [(joinPath current, "File not found in current location")], [])
  else
    let warns :=
      if verify && r.file_hash.isSome && !(verify_file_integrity st.fs current r.file_hash)
      then [(root ++ "/" ++ joinPath current, "File has been modified since organization")]
      else []
    let warnEvs := warns.map (fun _ => Ev.integrityWarning current)
    match makedirs st.fs (parentDir orig) with
    | .error _ =>
        (st, warnEvs ++ [Ev.failedRevert (joinPath current) "makedirs failed"],
          0, [(joinPath current, "makedirs failed")], warns)
    | .ok fs1 =>
        if pexists fs1 orig then
          let backup := conflictBackupDest orig st.clock
          let fs2 := shutil_move fs1 orig backup
          let fs3 := shutil_move fs2 current orig
          ({ st with fs := fs3, clock := st.clock + 1 },
            warnEvs ++ [Ev.conflictBackedUp orig backup, Ev.revertedFile current orig],
            1, [], warns)
        else
          let fs3 := shutil_move fs1 current orig
          ({ st with fs := fs3 },
            warnEvs ++ [Ev.revertedFile current orig], 1, [], warns)

/-- The record loop of `revert_organization`. -/
def revertLoop (root : String) (verify : Bool) :
    St → List FileRecord → St × Trace × Nat × List (String × String) × List (String × String)
  | st, [] => (st, [], 0, [], [])
  | st, r :: rest =>
      let (st1, tr1, n1, f1, w1) := revertRecordStep root verify st r
      let (st2, tr2, n2, f2, w2) := revertLoop root verify st1 rest
      (st2, tr1 ++ tr2, n1 + n2, f1 ++ f2, w1 ++ w2)

/-- The structured summary reported by a completed revert. -/
structure RevertResult where
  successful_reverts : Nat
  failed_reverts : List (String × String)
  integrity_warnings : List (String × String)
  cleanup_count : Nat
deriving DecidableEq, Repr

/-- Result of `revert_organization`: cancelled at the confirmation prompt
(returns `False`, nothing archived), or completed with the returned boolean
`successful_reverts > 0`. -/
inductive RevertOut where
  | cancelled
  | done (returned : Bool) (res : RevertResult)
deriving DecidableEq, Repr

/-- `backup.revert_organization(manifest_file, verify_integrity)`; `confirm`
models the interactive `yes` answer.  Raises (models `FileNotFoundError`)
when the designated manifest file does not exist. -/
def revert_organization (st : St) (src : MSrc) (confirm : Bool) (verify : Bool) :
    St × Trace × Except Unit RevertOut :=
  match storeAt st.store src with
  | none => (st, [], .error ())
  | some m =>
      if !confirm then (st, [], .ok .cancelled)
      else
        let (st1, tr, n, fails, warns) := revertLoop m.root_path verify st m.original_state
        let (fs2, cleaned) := cleanup_empty_folders st1.fs m.folders_created
        match archive_manifest { st1 with fs := fs2 } src with
        | .error _ => ({ st1 with fs := fs2 }, tr, .error ())
        | .ok (st3, ts) =>
            (st3, tr ++ [Ev.archivedManifest ts],
              .ok (.done (decide (0 < n))
                { successful_reverts := n
                  failed_reverts := fails
                  integrity_warnings := warns
                  cleanup_count := cleaned }))

/-! ## Shared helper definitions and lemmas -/

/-- Total form of source resolution, defined whenever a locator is present. -/
def resolvedSrc (m : Move) : FPath :=
  match m.relative_path with
  | some rp => splitPath rp
  | none => splitPath (m.file.getD "")

lemma resolveSource_eq_ok (m : Move)
    (h : m.relative_path.isSome ∨ m.file.isSome) :
    resolveSource m = .ok (resolvedSrc m) := by
  unfold resolveSource resolvedSrc
  cases hrp : m.relative_path with
  | some rp => rfl
  | none =>
      cases hf : m.file with
      | some f => rfl
      | none => simp [hrp, hf] at h

lemma calculate_file_hash_eq_none (fs : FS) (p : FPath)
    (h : isFileAt fs p = false) : calculate_file_hash fs p = none := by
  unfold isFileAt at h
  unfold calculate_file_hash
  cases he : entryAt fs p with
  | none => rfl
  | some e =>
      cases e with
      | file d s t => rw [he] at h; simp at h
      | dir => rfl

/-- Characterization of `original_state`: one record per move whose resolved
source exists, in plan order. -/
lemma manifestRecords_eq (fs : FS) :
    ∀ moves : List Move,
      (∀ m ∈ moves, (m.relative_path.isSome ∨ m.file.isSome) ∧
        (pexists fs (resolvedSrc m) = true → m.new_path.isSome)) →
      manifestRecords fs moves =
        .ok ((moves.filter (fun m => pexists fs (resolvedSrc m))).map
          (fun m => recordFor fs (resolvedSrc m) (m.new_path.getD "")))
  | [], _ => rfl
  | mv :: rest, h => by
      have hmv := h mv (List.mem_cons_self mv rest)
      have hres := resolveSource_eq_ok mv hmv.1
      have ih := manifestRecords_eq fs rest (fun m hm => h m (List.mem_cons_of_mem _ hm))
      unfold manifestRecords
      rw [hres]
      by_cases hex : pexists fs (resolvedSrc mv) = true
      · have hnp := hmv.2 hex
        cases hnps : mv.new_path with
        | none => rw [hnps] at hnp; simp at hnp
        | some np =>
            simp only [hex, if_true, hnps, ih, List.filter_cons, List.map_cons]
            rfl
      · have hex' : pexists fs (resolvedSrc mv) = false := by
          cases hb : pexists fs (resolvedSrc mv) with
          | true => exact absurd hb hex
          | false => rfl
        simp only [hex', Bool.false_eq_true, if_false, ih, List.filter_cons]

/-! ## Claim C4 -/

/-- Concrete filesystem holding one regular file whose size is exactly the
configured hash threshold. -/
def fsC4 : FS := [(["big.bin"], Entry.file 5 BACKUP_HASH_SIZE_LIMIT 7)]

/-- A single move of that file. -/
def mvC4 : Move :=
  { file := some "big.bin", relative_path := none,
    new_path := some "Arch/big.bin", reason := some "r" }

/-- C4 counterexample: a source file whose size is at the 10 MiB threshold
still receives a content hash in its manifest record, refuting `file_hash =
null` for files at or above the threshold. -/
theorem c4_counterexample :
    BACKUP_HASH_SIZE_LIMIT ≤ statSize fsC4 ["big.bin"] ∧
    manifestRecords fsC4 [mvC4] =
      .ok [recordFor fsC4 ["big.bin"] "Arch/big.bin"] ∧
    (recordFor fsC4 ["big.bin"] "Arch/big.bin").file_hash = some (sha256 5) := by
  exact ⟨Nat.le_refl _, rfl, rfl⟩

/-- **C4** (amended): `create_backup_manifest` applies no size threshold: the
manifest record of every move whose source exists carries `file_hash` equal
to `calculate_file_hash` of the source — in particular a hash is always
present (never null) when the source is a regular file, regardless of its
size, and `file_hash` is null exactly when the source is not a regular file
(e.g. a directory). -/
theorem c4_hash_unconditional (fs : FS) :
    ∀ (moves : List Move) (recs : List FileRecord),
      manifestRecords fs moves = .ok recs →
      ∀ r ∈ recs,
        r.file_hash = calculate_file_hash fs r.original_path ∧
        (isFileAt fs r.original_path = true → r.file_hash ≠ none)
  | [], recs, h => by
      unfold manifestRecords at h
      cases h
      intro r hr
      exact absurd hr (List.not_mem_nil r)
  | mv :: rest, recs, h => by
      unfold manifestRecords at h
      cases hres : resolveSource mv with
      | error e => rw [hres] at h; exact absurd h (by simp)
      | ok src =>
          rw [hres] at h
          dsimp only at h
          by_cases hex : pexists fs src = true
          · rw [hex] at h
            simp only [if_true] at h
            cases hnps : mv.new_path with
            | none => rw [hnps] at h; exact absurd h (by simp)
            | some np =>
                rw [hnps] at h
                cases hrest : manifestRecords fs rest with
                | error e => rw [hrest] at h; exact absurd h (by simp)
                | ok rr =>
                    rw [hrest] at h
                    cases h
                    intro r hr
                    rcases List.mem_cons.mp hr with hhead | htail
                    · subst hhead
                      constructor
                      · show (if isFileAt fs src then calculate_file_hash fs src else none) =
                          calculate_file_hash fs src
                        by_cases hf : isFileAt fs src = true
                        · rw [hf]; simp
                        · have hf' : isFileAt fs src = false := by
                            cases hb : isFileAt fs src with
                            | true => exact absurd hb hf
                            | false => rfl
                          rw [hf']
                          rw [calculate_file_hash_eq_none fs src hf']
                          simp
                      · intro hf
                        have hf' : isFileAt fs src = true := hf
                        show (if isFileAt fs src then calculate_file_hash fs src else none) ≠ none
                        rw [hf']
                        simp only [if_true]
                        unfold isFileAt at hf'
                        unfold calculate_file_hash
                        cases he : entryAt fs src with
                        | none => rw [he] at hf'; simp at hf'
                        | some e =>
                            cases e with
                            | file d s t => simp
                            | dir => rw [he] at hf'; simp at hf'
                    · exact c4_hash_unconditional fs rest rr hrest r htail
          · have hex' : pexists fs src = false := by
              cases hb : pexists fs src with
              | true => exact absurd hb hex
              | false => rfl
            rw [hex'] at h
            simp only [Bool.false_eq_true, if_false] at h
            exact c4_hash_unconditional fs rest recs h

/-- C4 witness: the theorem applied to the concrete at-threshold file. -/
theorem c4_witness :
    (recordFor fsC4 ["big.bin"] "Arch/big.bin").file_hash =
      calculate_file_hash fsC4 (recordFor fsC4 ["big.bin"] "Arch/big.bin").original_path ∧
    (isFileAt fsC4 (recordFor fsC4 ["big.bin"] "Arch/big.bin").original_path = true →
      (recordFor fsC4 ["big.bin"] "Arch/big.bin").file_hash ≠ none) :=
  c4_hash_unconditional fsC4 [mvC4]
    [recordFor fsC4 ["big.bin"] "Arch/big.bin"] rfl
    (recordFor fsC4 ["big.bin"] "Arch/big.bin") (List.mem_cons_self _ _)

/-! ## Claim C10 -/

/-- **C10**: `create_backup_manifest` writes a `FileRecord` only for moves
whose resolved source exists at snapshot time — a move with a missing source
contributes no record at all, so `original_state` can be shorter than the
move count — and a source that exists but is not a regular file (a
directory) gets a record with `file_hash = null`. -/
theorem c10_record_per_existing_source (fs : FS) (moves : List Move)
    (hwf : ∀ m ∈ moves, (m.relative_path.isSome ∨ m.file.isSome) ∧ m.new_path.isSome) :
    manifestRecords fs moves =
      .ok ((moves.filter (fun m => pexists fs (resolvedSrc m))).map
        (fun m => recordFor fs (resolvedSrc m) (m.new_path.getD ""))) ∧
    (∀ recs, manifestRecords fs moves = .ok recs → recs.length ≤ moves.length) ∧
    (∀ m ∈ moves, pexists fs (resolvedSrc m) = true →
      isFileAt fs (resolvedSrc m) = false →
      (recordFor fs (resolvedSrc m) (m.new_path.getD "")).file_hash = none) := by
  have h1 := manifestRecords_eq fs moves (fun m hm => ⟨(hwf m hm).1, fun _ => (hwf m hm).2⟩)
  refine ⟨h1, ?_, ?_⟩
  · intro recs hrecs
    rw [h1] at hrecs
    cases hrecs
    rw [List.length_map]
    exact List.length_filter_le _ _
  · intro m _ _ hnf
    show (if isFileAt fs (resolvedSrc m) then calculate_file_hash fs (resolvedSrc m)
          else none) = none
    rw [hnf]
    simp

/-- Concrete snapshot filesystem: one directory (with a file inside) and
nothing at `gone.txt`. -/
def fsC10 : FS := [(["docs"], Entry.dir), (["docs", "x.txt"], Entry.file 1 2 3)]

/-- A move whose source does not exist. -/
def mvC10a : Move :=
  { file := some "gone.txt", relative_path := none,
    new_path := some "Stuff/gone.txt", reason := some "r" }

/-- A move whose source is a directory. -/
def mvC10b : Move :=
  { file := some "docs", relative_path := none,
    new_path := some "Stuff/docs", reason := some "r" }

/-- C10 witness: on the concrete snapshot, only the directory move is
recorded (one record for two moves) and its hash is null. -/
theorem c10_witness :
    manifestRecords fsC10 [mvC10a, mvC10b] =
      .ok [recordFor fsC10 ["docs"] "Stuff/docs"] ∧
    (∀ recs, manifestRecords fsC10 [mvC10a, mvC10b] = .ok recs → recs.length ≤ 2) ∧
    (recordFor fsC10 ["docs"] "Stuff/docs").file_hash = none := by
  have h := c10_record_per_existing_source fsC10 [mvC10a, mvC10b] (by decide)
  refine ⟨h.1, fun recs hr => h.2.1 recs hr, ?_⟩
  exact h.2.2 mvC10b (by decide) (by decide) (by decide)

/-! ## Claim C5 -/

/-- Is an event a conflict-rename report? -/
def isConflictEv : Ev → Bool
  | .renamedConflict _ _ => true
  | _ => false

lemma execFoldersLoop_dry (st : St) :
    ∀ (fl created : List String) (tr : Trace),
      ∃ c' t', execFoldersLoop true st fl created tr = .ok (st, c', t') ∧
        ∀ ev ∈ t', ev ∈ tr ∨ ∃ f d, ev = Ev.createdFolder f d
  | [], created, tr => ⟨created, tr, rfl, fun ev hev => Or.inl hev⟩
  | f :: rest, created, tr => by
      unfold execFoldersLoop
      dsimp only
      by_cases hex : pexists st.fs (splitPath f) = true
      · rw [hex]
        simp only [if_true]
        exact execFoldersLoop_dry st rest created tr
      · have hex' : pexists st.fs (splitPath f) = false := by
          cases hb : pexists st.fs (splitPath f) with
          | true => exact absurd hb hex
          | false => rfl
        rw [hex']
        simp only [Bool.false_eq_true, if_false, if_true]
        have hst : ({ st with fs := st.fs } : St) = st := rfl
        rw [hst]
        obtain ⟨c', t', heq, hev⟩ :=
          execFoldersLoop_dry st rest
            (if created.contains f then created else created ++ [f])
            (tr ++ [Ev.createdFolder f true])
        refine ⟨c', t', heq, fun ev he => ?_⟩
        rcases hev ev he with hin | hshape
        · rcases List.mem_append.mp hin with h1 | h2
          · exact Or.inl h1
          · simp at h2
            exact Or.inr ⟨f, true, h2⟩
        · exact Or.inr hshape

lemma execMoveStep_dry (root : String) (st : St) (mv : Move) :
    ∃ tr failed, execMoveStep root true st mv = (st, tr, failed) ∧
      ∀ ev ∈ tr, isConflictEv ev = false := by
  unfold execMoveStep
  cases hres : resolveSource mv with
  | error e =>
      refine ⟨_, _, rfl, ?_⟩
      intro ev hev
      simp only [List.mem_singleton] at hev
      rw [hev]; rfl
  | ok src =>
      cases hnps : mv.new_path with
      | none =>
          refine ⟨_, _, rfl, ?_⟩
          intro ev hev
          simp only [List.mem_singleton] at hev
          rw [hev]; rfl
      | some nps =>
          dsimp only
          by_cases hex : pexists st.fs src = true
          · have hnot : (!pexists st.fs src) = false := by rw [hex]; rfl
            rw [hnot]
            simp only [Bool.false_eq_true, if_false, if_true]
            cases hmk : (if (true : Bool) = true then Except.ok st.fs
                else makedirs st.fs (parentDir (splitPath nps)) : Except Unit FS) with
            | error e => exact absurd hmk (by simp)
            | ok fs1 =>
                have hfs1 : fs1 = st.fs := by
                  simp only [if_pos rfl] at hmk
                  exact (Except.ok.inj hmk).symm
                subst hfs1
                simp only [Bool.not_true, Bool.and_false, Bool.false_eq_true, if_false,
                  if_true]
                refine ⟨_, _, rfl, ?_⟩
                intro ev hev
                simp only [List.mem_singleton] at hev
                rw [hev]; rfl
          · have hex' : pexists st.fs src = false := by
              cases hb : pexists st.fs src with
              | true => exact absurd hb hex
              | false => rfl
            rw [hex']
            simp only [Bool.not_false, if_true]
            refine ⟨_, _, rfl, ?_⟩
            intro ev hev
            simp only [List.mem_singleton] at hev
            rw [hev]; rfl

lemma execMovesLoop_dry (root : String) (st : St) :
    ∀ moves : List Move,
      ∃ tr n fails, execMovesLoop root true st moves = (st, tr, n, fails) ∧
        ∀ ev ∈ tr, isConflictEv ev = false
  | [] => ⟨[], 0, [], rfl, by intro ev hev; simp at hev⟩
  | mv :: rest => by
      obtain ⟨tr1, failed, hstep, h2⟩ := execMoveStep_dry root st mv
      obtain ⟨tr2, n, fails, hloop, ih2⟩ := execMovesLoop_dry root st rest
      refine ⟨tr1 ++ tr2, (if failed.isNone then 1 else 0) + n, failed.toList ++ fails,
        ?_, ?_⟩
      · unfold execMovesLoop
        rw [hstep]
        dsimp only
        rw [hloop]
      · intro ev hev
        rcases List.mem_append.mp hev with ha | hb
        · exact h2 ev ha
        · exact ih2 ev hb

/-- **C5** (amended): a dry-run execution performs no mutation whatsoever —
the filesystem, the data store (manifest, results) and the clock are all
returned unchanged, for every plan and state — and it runs the same
source-existence checks, but it does not execute the conflict branch: the
condition `dest.exists() and not dry_run` is false in dry-run, so destination
conflicts are never detected or reported (no conflict-rename decision ever
appears in a dry-run's report). -/
theorem c5_dry_run_frame (root : String) (st : St) (plan : Plan) :
    (perform_file_moves root st plan true).1 = st ∧
    ∀ ev ∈ (perform_file_moves root st plan true).2.1, isConflictEv ev = false := by
  unfold perform_file_moves
  cases hv : validate_plan st.fs root plan with
  | error e => exact ⟨rfl, by intro ev hev; simp at hev⟩
  | ok issues =>
      dsimp only
      by_cases hiss : issues = []
      · rw [if_pos hiss]
        unfold execAfterManifest
        obtain ⟨c', t', heq, hshape⟩ :=
          execFoldersLoop_dry st (plan.folders.getD []) [] []
        rw [heq]
        dsimp only
        obtain ⟨tr2, n, fails, hloop, ih2⟩ := execMovesLoop_dry root st (plan.moves.getD [])
        rw [hloop]
        dsimp only
        refine ⟨rfl, fun ev hev => ?_⟩
        rcases List.mem_append.mp hev with ha | hb
        · rcases hshape ev ha with hin | ⟨f, d, hfd⟩
          · simp at hin
          · rw [hfd]; rfl
        · exact ih2 ev hb
      · rw [if_neg hiss]
        exact ⟨rfl, by intro ev hev; simp at hev⟩

/-- Filesystem with a pre-existing occupant at the planned destination. -/
def fsC5 : FS :=
  [(["a.txt"], Entry.file 7 5 100), (["Work"], Entry.dir),
   (["Work", "a.txt"], Entry.file 9 3 50)]

def stC5 : St :=
  { fs := fsC5, store := { manifest := none, archives := [], results := none },
    clock := 0 }

def mvC5 : Move :=
  { file := some "a.txt", relative_path := some "a.txt",
    new_path := some "Work/a.txt", reason := some "doc" }

def planC5 : Plan := { folders := some ["Work"], moves := some [mvC5] }

/-- C5 counterexample: on the same state and plan, the real execution detects
the destination conflict and reports a conflict rename, while the dry run
reports no conflict decision at all — the decision trees are not identical. -/
theorem c5_counterexample :
    (∀ ev ∈ (perform_file_moves "/r" stC5 planC5 true).2.1, isConflictEv ev = false) ∧
    Ev.renamedConflict ["Work", "a.txt"] ["Work", "a_1.txt"] ∈
      (perform_file_moves "/r" stC5 planC5 false).2.1 := by
  constructor
  · decide
  · decide

/-! ## Claim C7 -/

lemma resolveSource_ok_eq (m : Move) (s : FPath)
    (h : resolveSource m = .ok s) : s = resolvedSrc m := by
  unfold resolveSource at h
  unfold resolvedSrc
  cases hrp : m.relative_path with
  | some rp => rw [hrp] at h; exact (Except.ok.inj h).symm
  | none =>
      rw [hrp] at h
      cases hf : m.file with
      | some f => rw [hf] at h; exact (Except.ok.inj h).symm
      | none => rw [hf] at h; exact absurd h (by simp)

lemma lookup_cons_isSome (d a : String) (b : Nat) (l : List (String × Nat))
    (h : (l.lookup d).isSome = true) :
    (List.lookup d ((a, b) :: l)).isSome = true := by
  unfold List.lookup
  by_cases hd : (d == a) = true
  · rw [hd]; rfl
  · have hd' : (d == a) = false := by
      cases hb : (d == a) with
      | true => exact absurd hb hd
      | false => rfl
    rw [hd']
    exact h

/-- In the `validate_plan` loop, a move whose `new_path` repeats an earlier
move's `new_path` (or one already seen) contributes a duplicate-destination
issue naming its own index. -/
lemma validateMoves_ok_dup (fs : FS) (root : String) :
    ∀ (moves : List Move) (i0 : Nat) (seen : List (String × Nat)) (issues : List String),
      validateMoves fs root moves i0 seen = .ok issues →
      ∀ (j : Nat) (mj : Move), moves[j]? = some mj →
        ((seen.lookup (mj.new_path.getD "")).isSome = true ∨
          ∃ i mi, i < j ∧ moves[i]? = some mi ∧
            mi.new_path.getD "" = mj.new_path.getD "") →
        duplicateDestIssue (i0 + j) (mj.new_path.getD "") ∈ issues
  | [], i0, seen, issues, h, j, mj, hj, _ => by simp at hj
  | mv :: rest, i0, seen, issues, h, j, mj, hj, hpre => by
      unfold validateMoves at h
      cases hres : resolveSource mv with
      | error e => rw [hres] at h; exact absurd h (by simp)
      | ok src =>
          rw [hres] at h
          dsimp only at h
          cases hrec : validateMoves fs root rest (i0 + 1)
              ((mv.new_path.getD "", i0) :: seen) with
          | error e => rw [hrec] at h; exact absurd h (by simp)
          | ok restIssues =>
              rw [hrec] at h
              have hiss : issues =
                  fieldIssues i0 mv ++
                    (if pexists fs src then [] else [missingSourceIssue root i0 src]) ++
                    (if (seen.lookup (mv.new_path.getD "")).isSome then
                      [duplicateDestIssue i0 (mv.new_path.getD "")] else []) ++
                    restIssues := (Except.ok.inj h).symm
              cases j with
              | zero =>
                  have hmv : mv = mj := by simpa using hj
                  rw [hmv] at hiss
                  rcases hpre with hseen | ⟨i, mi, hi0, _, _⟩
                  · rw [hiss]
                    rw [Nat.add_zero]
                    have hif : (if (seen.lookup (mj.new_path.getD "")).isSome then
                        [duplicateDestIssue i0 (mj.new_path.getD "")] else []) =
                        [duplicateDestIssue i0 (mj.new_path.getD "")] := by
                      rw [hseen]; rfl
                    refine List.mem_append.mpr (Or.inl ?_)
                    refine List.mem_append.mpr (Or.inr ?_)
                    rw [hif]
                    exact List.mem_singleton.mpr rfl
                  · exact absurd hi0 (Nat.not_lt_zero i)
              | succ k =>
                  have hjk : rest[k]? = some mj := by simpa using hj
                  have hpre' : ((((mv.new_path.getD "", i0) :: seen).lookup
                        (mj.new_path.getD "")).isSome = true ∨
                      ∃ i mi, i < k ∧ rest[i]? = some mi ∧
                        mi.new_path.getD "" = mj.new_path.getD "") := by
                    rcases hpre with hseen | ⟨i, mi, hik, hi, hd⟩
                    · exact Or.inl (lookup_cons_isSome _ _ _ _ hseen)
                    · cases i with
                      | zero =>
                          have hmv : mv = mi := by simpa using hi
                          refine Or.inl ?_
                          unfold List.lookup
                          have hbeq : (mj.new_path.getD "" == mv.new_path.getD "") = true := by
                            rw [hmv, hd]
                            exact beq_self_eq_true _
                          rw [hbeq]
                          rfl
                      | succ l =>
                          refine Or.inr ⟨l, mi, Nat.lt_of_succ_lt_succ hik, ?_, hd⟩
                          simpa using hi
                  have ih := validateMoves_ok_dup fs root rest (i0 + 1)
                    ((mv.new_path.getD "", i0) :: seen) restIssues hrec k mj hjk hpre'
                  rw [hiss]
                  have harith : i0 + 1 + k = i0 + (k + 1) := by omega
                  rw [harith] at ih
                  exact List.mem_append.mpr (Or.inr ih)

/-- In the `validate_plan` loop, every move whose resolved source is missing
contributes a source-not-found issue naming its index (issues accumulate
across all moves). -/
lemma validateMoves_ok_missing (fs : FS) (root : String) :
    ∀ (moves : List Move) (i0 : Nat) (seen : List (String × Nat)) (issues : List String),
      validateMoves fs root moves i0 seen = .ok issues →
      ∀ (k : Nat) (mk : Move), moves[k]? = some mk →
        pexists fs (resolvedSrc mk) = false →
        missingSourceIssue root (i0 + k) (resolvedSrc mk) ∈ issues
  | [], i0, seen, issues, h, k, mk, hk, _ => by simp at hk
  | mv :: rest, i0, seen, issues, h, k, mk, hk, hmiss => by
      unfold validateMoves at h
      cases hres : resolveSource mv with
      | error e => rw [hres] at h; exact absurd h (by simp)
      | ok src =>
          rw [hres] at h
          dsimp only at h
          cases hrec : validateMoves fs root rest (i0 + 1)
              ((mv.new_path.getD "", i0) :: seen) with
          | error e => rw [hrec] at h; exact absurd h (by simp)
          | ok restIssues =>
              rw [hrec] at h
              have hiss : issues =
                  fieldIssues i0 mv ++
                    (if pexists fs src then [] else [missingSourceIssue root i0 src]) ++
                    (if (seen.lookup (mv.new_path.getD "")).isSome then
                      [duplicateDestIssue i0 (mv.new_path.getD "")] else []) ++
                    restIssues := (Except.ok.inj h).symm
              cases k with
              | zero =>
                  have hmv : mv = mk := by simpa using hk
                  rw [hmv] at hiss hres
                  have hsrc : src = resolvedSrc mk := resolveSource_ok_eq mk src hres
                  rw [hsrc] at hiss
                  rw [hiss, Nat.add_zero]
                  have hif : (if pexists fs (resolvedSrc mk) then []
                      else [missingSourceIssue root i0 (resolvedSrc mk)]) =
                      [missingSourceIssue root i0 (resolvedSrc mk)] := by
                    rw [hmiss]; rfl
                  refine List.mem_append.mpr (Or.inl ?_)
                  refine List.mem_append.mpr (Or.inl ?_)
                  refine List.mem_append.mpr (Or.inr ?_)
                  rw [hif]
                  exact List.mem_singleton.mpr rfl
              | succ l =>
                  have hlk : rest[l]? = some mk := by simpa using hk
                  have ih := validateMoves_ok_missing fs root rest (i0 + 1)
                    ((mv.new_path.getD "", i0) :: seen) restIssues hrec l mk hlk hmiss
                  rw [hiss]
                  have harith : i0 + 1 + l = i0 + (l + 1) := by omega
                  rw [harith] at ih
                  exact List.mem_append.mpr (Or.inr ih)

/-- **C7** (amended): when two moves at indices `i < j` target the same
`new_path`, `validate_plan` flags the second move with a
duplicate-destination issue naming index `j` and the duplicated path — the
first index `i` is tracked internally but not included in the issue — and,
whenever validation returns at all, issues accumulate across all moves
without stopping at the first failure (a move missing both `file` and
`relative_path` instead raises a `KeyError`; an absent `moves` key returns
immediately with a single issue). -/
theorem c7_duplicate_dest_second_index (fs : FS) (root : String)
    (fo : Option (List String)) (moves : List Move) (issues : List String)
    (hv : validate_plan fs root { folders := fo, moves := some moves } = .ok issues)
    (i j : Nat) (mi mj : Move) (hij : i < j)
    (hi : moves[i]? = some mi) (hj : moves[j]? = some mj)
    (hd : mi.new_path.getD "" = mj.new_path.getD "") :
    duplicateDestIssue j (mj.new_path.getD "") ∈ issues ∧
    ∀ (k : Nat) (mk : Move), moves[k]? = some mk →
      pexists fs (resolvedSrc mk) = false →
      missingSourceIssue root k (resolvedSrc mk) ∈ issues := by
  unfold validate_plan at hv
  dsimp only at hv
  constructor
  · have := validateMoves_ok_dup fs root moves 0 [] issues hv j mj hj
      (Or.inr ⟨i, mi, hij, hi, hd⟩)
    rwa [Nat.zero_add] at this
  · intro k mk hk hmiss
    have := validateMoves_ok_missing fs root moves 0 [] issues hv k mk hk hmiss
    rwa [Nat.zero_add] at this

/-- Filesystem for the duplicate-destination scenario: both sources exist. -/
def fsC7 : FS := [(["a.txt"], Entry.file 1 2 3), (["b.txt"], Entry.file 4 5 6)]

def mvC7a : Move :=
  { file := some "a.txt", relative_path := none,
    new_path := some "Work/a.txt", reason := some "r" }

def mvC7b : Move :=
  { file := some "b.txt", relative_path := none,
    new_path := some "Work/a.txt", reason := some "r" }

def planC7 : Plan := { folders := none, moves := some [mvC7a, mvC7b] }

/-- C7 counterexample: with moves 0 and 1 targeting the same destination, the
complete issue list is a single message naming only index 1 — it contains no
character `0`, so the first index is not reported. -/
theorem c7_counterexample :
    validate_plan fsC7 "/r" planC7 =
      .ok ["Move 1: Duplicate destination: Work/a.txt"] ∧
    ("Move 1: Duplicate destination: Work/a.txt".data.contains '0') = false := by
  exact ⟨rfl, rfl⟩

/-- C7 witness: the amended theorem applied to the concrete duplicate plan. -/
theorem c7_witness :
    duplicateDestIssue 1 (mvC7b.new_path.getD "") ∈
      ["Move 1: Duplicate destination: Work/a.txt"] ∧
    ∀ (k : Nat) (mk : Move), [mvC7a, mvC7b][k]? = some mk →
      pexists fsC7 (resolvedSrc mk) = false →
      missingSourceIssue "/r" k (resolvedSrc mk) ∈
        ["Move 1: Duplicate destination: Work/a.txt"] :=
  c7_duplicate_dest_second_index fsC7 "/r" none [mvC7a, mvC7b]
    ["Move 1: Duplicate destination: Work/a.txt"] rfl 0 1 mvC7a mvC7b
    (by decide) rfl rfl rfl

/-! ## Claim C6 -/

/-- **C6**: for every plan (processable by the validator) containing a move
at index `i` whose resolved source does not exist under the root,
`validate_plan` returns an issue naming index `i`, and `perform_file_moves`
refuses to start: it returns the validation failure with the state unchanged
— no manifest, no folders, no moves. -/
theorem c6_missing_source_refusal (root : String) (st : St) (plan : Plan)
    (moves : List Move) (issues : List String)
    (hm : plan.moves = some moves)
    (hv : validate_plan st.fs root plan = .ok issues)
    (i : Nat) (mi : Move) (hi : moves[i]? = some mi)
    (hmiss : pexists st.fs (resolvedSrc mi) = false) :
    missingSourceIssue root i (resolvedSrc mi) ∈ issues ∧
    perform_file_moves root st plan false = (st, [], .ok (.invalid issues)) := by
  have hvm : validateMoves st.fs root moves 0 [] = .ok issues := by
    unfold validate_plan at hv
    rw [hm] at hv
    exact hv
  have hmem := validateMoves_ok_missing st.fs root moves 0 [] issues hvm i mi hi hmiss
  rw [Nat.zero_add] at hmem
  refine ⟨hmem, ?_⟩
  unfold perform_file_moves
  rw [hv]
  dsimp only
  have hne : ¬(issues = []) := by
    intro h
    rw [h] at hmem
    simp at hmem
  rw [if_neg hne]

/-- Empty tool data directory, for concrete scenarios. -/
def emptyStore : Store := { manifest := none, archives := [], results := none }

def stC6 : St := { fs := [(["a.txt"], Entry.file 1 2 3)], store := emptyStore, clock := 0 }

def mvC6 : Move :=
  { file := some "gone.txt", relative_path := none,
    new_path := some "W/gone.txt", reason := some "r" }

def planC6 : Plan := { folders := some ["W"], moves := some [mvC6] }

/-- C6 witness: the theorem applied to a concrete plan whose only move has a
missing source. -/
theorem c6_witness :
    missingSourceIssue "/r" 0 ["gone.txt"] ∈
      ["Move 0: Source file not found: /r/gone.txt"] ∧
    perform_file_moves "/r" stC6 planC6 false =
      (stC6, [],
        .ok (.invalid ["Move 0: Source file not found: /r/gone.txt"])) :=
  c6_missing_source_refusal "/r" stC6 planC6 [mvC6]
    ["Move 0: Source file not found: /r/gone.txt"] rfl rfl 0 mvC6 rfl rfl

/-! ## Claim C3 -/

/-- **C3**: for every non-dry-run execution of a plan that validates cleanly,
the backup manifest is computed and persisted before any filesystem
mutation: `create_backup_manifest` returns a state whose filesystem is
untouched but whose store already holds the manifest, the manifest-written
event opens the trace, and everything else `perform_file_moves` does (folder
creation, moves, results) runs strictly after, from that state. -/
theorem c3_manifest_precedes_mutation (root : String) (st : St) (plan : Plan)
    (hv : validate_plan st.fs root plan = .ok []) (st1 : St) (m : Manifest)
    (hc : create_backup_manifest st root plan = .ok (st1, m)) :
    st1.fs = st.fs ∧
    st1.store.manifest = some m ∧
    perform_file_moves root st plan false =
      ((execAfterManifest root st1 plan false).1,
        Ev.wroteManifest m :: (execAfterManifest root st1 plan false).2.1,
        (execAfterManifest root st1 plan false).2.2.map
          (fun x => PerformOut.done x.1 x.2)) := by
  have hc' := hc
  unfold create_backup_manifest at hc'
  cases hrec : manifestRecords st.fs (plan.moves.getD []) with
  | error e => rw [hrec] at hc'; exact absurd hc' (by simp)
  | ok recs =>
      rw [hrec] at hc'
      dsimp only at hc'
      have hpair := Except.ok.inj hc'
      obtain ⟨h1, h2⟩ := Prod.mk.injEq .. ▸ hpair
      refine ⟨by rw [← h1], by rw [← h1, ← h2], ?_⟩
      unfold perform_file_moves
      rw [hv]
      dsimp only
      rw [if_pos rfl]
      rw [hc]
      rfl

def stC3 : St := { fs := fsC7, store := emptyStore, clock := 0 }

def planC3 : Plan := { folders := some ["Work"], moves := some [mvC7a] }

/-- The manifest the concrete C3 execution persists. -/
def mC3 : Manifest :=
  { timestamp := 0, root_path := "/r",
    original_state := [recordFor fsC7 ["a.txt"] "Work/a.txt"],
    total_moves := 1, folders_created := ["Work"] }

/-- The state right after the manifest step of the concrete C3 execution. -/
def st1C3 : St :=
  { fs := fsC7, store := { manifest := some mC3, archives := [], results := none },
    clock := 1 }

/-- C3 witness: the theorem applied to a concrete clean single-move plan. -/
theorem c3_witness :
    st1C3.fs = stC3.fs ∧
    st1C3.store.manifest = some mC3 ∧
    perform_file_moves "/r" stC3 planC3 false =
      ((execAfterManifest "/r" st1C3 planC3 false).1,
        Ev.wroteManifest mC3 :: (execAfterManifest "/r" st1C3 planC3 false).2.1,
        (execAfterManifest "/r" st1C3 planC3 false).2.2.map
          (fun x => PerformOut.done x.1 x.2)) :=
  c3_manifest_precedes_mutation "/r" stC3 planC3 rfl st1C3 mC3 rfl

/-! ## Claims C9 and C8: revert-side helper lemmas -/

/-- One revert record step never touches the tool store and never decreases
the clock. -/
lemma revertRecordStep_store_clock (root : String) (v : Bool) (st : St) (r : FileRecord) :
    (revertRecordStep root v st r).1.store = st.store ∧
    st.clock ≤ (revertRecordStep root v st r).1.clock := by
  unfold revertRecordStep
  dsimp only
  by_cases hc : pexists st.fs r.new_path = true
  · have hnot : (!pexists st.fs r.new_path) = false := by rw [hc]; rfl
    rw [hnot]
    simp only [Bool.false_eq_true, if_false]
    cases hmk : makedirs st.fs (parentDir r.original_path) with
    | error e =>
        constructor
        · simp
        · simp
    | ok fs1 =>
        dsimp only
        by_cases ho : pexists fs1 r.original_path = true
        · rw [ho]
          constructor
          · simp
          · simp
        · have ho' : pexists fs1 r.original_path = false := by
            cases hb : pexists fs1 r.original_path with
            | true => exact absurd hb ho
            | false => rfl
          rw [ho']
          constructor
          · simp
          · simp
  · have hc' : pexists st.fs r.new_path = false := by
      cases hb : pexists st.fs r.new_path with
      | true => exact absurd hb hc
      | false => rfl
    have hnot : (!pexists st.fs r.new_path) = true := by rw [hc']; rfl
    rw [hnot]
    simp only [if_true]
    by_cases ho : pexists st.fs r.original_path = true
    · rw [ho]
      constructor
      · simp
      · simp
    · have ho' : pexists st.fs r.original_path = false := by
        cases hb : pexists st.fs r.original_path with
        | true => exact absurd hb ho
        | false => rfl
      rw [ho']
      constructor
      · simp
      · simp

/-- The revert loop never touches the tool store and never decreases the
clock. -/
lemma revertLoop_store_clock (root : String) (v : Bool) :
    ∀ (recs : List FileRecord) (st : St),
      (revertLoop root v st recs).1.store = st.store ∧
      st.clock ≤ (revertLoop root v st recs).1.clock
  | [], st => ⟨rfl, Nat.le_refl _⟩
  | r :: rest, st => by
      obtain ⟨hs, hcl⟩ := revertRecordStep_store_clock root v st r
      rcases hstep : revertRecordStep root v st r with ⟨st1, tr1, n1, f1, w1⟩
      rw [hstep] at hs hcl
      obtain ⟨ihs, ihcl⟩ := revertLoop_store_clock root v rest st1
      rcases hloop : revertLoop root v st1 rest with ⟨st2, tr2, n2, f2, w2⟩
      rw [hloop] at ihs ihcl
      unfold revertLoop
      rw [hstep]
      dsimp only
      rw [hloop]
      exact ⟨by rw [ihs, hs], Nat.le_trans hcl ihcl⟩

lemma filter_ne_key_eq_self (ts : Nat) (l : List (Nat × Manifest))
    (h : ∀ k ∈ l.map Prod.fst, k ≠ ts) :
    l.filter (fun kv => !(kv.1 == ts)) = l := by
  induction l with
  | nil => rfl
  | cons kv rest ih =>
      have hk : kv.1 ≠ ts := h kv.1 (by simp)
      have hb : (kv.1 == ts) = false := by
        cases hbb : (kv.1 == ts) with
        | true => exact absurd (by simpa using hbb) hk
        | false => rfl
      rw [List.filter_cons]
      rw [hb]
      simp only [Bool.not_false, if_true]
      rw [ih (fun k hkk => h k (by simp [hkk]))]

/-- **C9** (amended): once a confirmed revert has processed all manifest
records, the manifest file is archived unconditionally — the theorem places
no constraint on how many records were successfully reverted, including zero
— under a timestamped key at least the starting clock; provided no existing
archive file already carries that generated key (all existing keys predate
the clock), the archive step overwrites nothing: the manifest data is
prepended to the untouched archive list and the active manifest slot is
cleared.  (When an archive file does carry the same timestamp key,
`shutil.move` overwrites it — see the counterexample.) -/
theorem c9_archive_unconditional (st : St) (m : Manifest) (verify : Bool)
    (hm : st.store.manifest = some m)
    (hfresh : ∀ k ∈ st.store.archives.map Prod.fst, k < st.clock) :
    ∃ ts res,
      (revert_organization st .main true verify).2.2 =
        .ok (.done (decide (0 < res.successful_reverts)) res) ∧
      (revert_organization st .main true verify).1.store.manifest = none ∧
      (revert_organization st .main true verify).1.store.archives =
        (ts, m) :: st.store.archives ∧
      st.clock ≤ ts := by
  unfold revert_organization
  have hsa : storeAt st.store MSrc.main = some m := hm
  rw [hsa]
  dsimp only
  obtain ⟨hs, hcl⟩ := revertLoop_store_clock m.root_path verify m.original_state st
  rcases hloop : revertLoop m.root_path verify st m.original_state
    with ⟨st1, tr, n, fails, warns⟩
  rw [hloop] at hs hcl
  dsimp only at hs hcl
  simp only [Bool.not_true, Bool.false_eq_true, if_false]
  dsimp only
  rcases hclean : cleanup_empty_folders st1.fs m.folders_created with ⟨fs2, cleaned⟩
  dsimp only
  unfold archive_manifest
  dsimp only
  rw [hs]
  rw [hsa]
  simp only [storeRemove]
  refine ⟨st1.clock, ⟨n, fails, warns, cleaned⟩, by simp, by simp, ?_, hcl⟩
  show (st1.clock, m) ::
      List.filter (fun kv => !(kv.1 == st1.clock)) st.store.archives =
      (st1.clock, m) :: st.store.archives
  rw [filter_ne_key_eq_self st1.clock st.store.archives
    (fun k hk => Nat.ne_of_lt (Nat.lt_of_lt_of_le (hfresh k hk) hcl))]

/-- A manifest whose single record is restorable nowhere (both paths absent). -/
def mC9 : Manifest :=
  { timestamp := 0, root_path := "/r",
    original_state :=
      [{ original_path := ["gone"], new_path := ["moved", "gone"],
         file_hash := none, size := 1, modified := 0 }],
    total_moves := 1, folders_created := [] }

/-- An older manifest already sitting in the archive directory. -/
def mC9old : Manifest :=
  { timestamp := 99, root_path := "/old", original_state := [],
    total_moves := 5, folders_created := [] }

def stC9 : St :=
  { fs := [], store := { manifest := some mC9, archives := [(3, mC9old)], results := none },
    clock := 5 }

/-- C9 witness: the theorem applied to a revert with zero successful
reverts; the archive step still runs and overwrites nothing. -/
theorem c9_witness :
    (∃ ts res,
      (revert_organization stC9 .main true true).2.2 =
        .ok (.done (decide (0 < res.successful_reverts)) res) ∧
      (revert_organization stC9 .main true true).1.store.manifest = none ∧
      (revert_organization stC9 .main true true).1.store.archives =
        (ts, mC9) :: stC9.store.archives ∧
      stC9.clock ≤ ts) ∧
    (revert_organization stC9 .main true true).2.2 =
      .ok (.done false
        { successful_reverts := 0,
          failed_reverts := [("moved/gone", "File not found in current location")],
          integrity_warnings := [], cleanup_count := 0 }) :=
  ⟨c9_archive_unconditional stC9 mC9 true rfl (by decide), rfl⟩

/-- A same-timestamp manifest archive collision: the archive directory
already holds `backup_manifest_5.json` when the clock reads 5. -/
def stC9c : St :=
  { fs := [], store := { manifest := some mC9, archives := [(5, mC9old)], results := none },
    clock := 5 }

/-- C9 counterexample: when the generated archive name collides with an
existing archive file (same second-granularity timestamp), `shutil.move`
overwrites it: the old archive's manifest data is destroyed, refuting "the
archive step never overwrites an existing archive file". -/
theorem c9_counterexample :
    stC9c.store.archives = [(5, mC9old)] ∧
    (revert_organization stC9c .main true true).1.store.archives = [(5, mC9)] ∧
    mC9 ≠ mC9old := by
  refine ⟨rfl, rfl, ?_⟩
  decide

/-! ## Claim C8 -/

/-- The revert loop on records that are all already reverted (moved-to path
absent, original present): every record is a success, nothing changes. -/
lemma revertLoop_already_reverted (root : String) (v : Bool) :
    ∀ (recs : List FileRecord) (st : St),
      (∀ r ∈ recs, pexists st.fs r.new_path = false ∧
        pexists st.fs r.original_path = true) →
      revertLoop root v st recs =
        (st, recs.map (fun r => Ev.alreadyReverted r.original_path),
          recs.length, [], [])
  | [], st, _ => rfl
  | r :: rest, st, hall => by
      obtain ⟨hnew, horig⟩ := hall r (List.mem_cons_self r rest)
      have hstep : revertRecordStep root v st r =
          (st, [Ev.alreadyReverted r.original_path], 1, [], []) := by
        unfold revertRecordStep
        dsimp only
        have hnot : (!pexists st.fs r.new_path) = true := by rw [hnew]; rfl
        rw [hnot]
        simp only [if_true]
        rw [horig]
        simp only [if_true]
      have ih := revertLoop_already_reverted root v rest st
        (fun x hx => hall x (List.mem_cons_of_mem r hx))
      unfold revertLoop
      rw [hstep]
      dsimp only
      rw [ih]
      dsimp only
      rw [List.length_cons, Nat.add_comm 1 rest.length]
      rfl

/-- **C8**: revert is idempotent per record — a record whose moved-to path no
longer exists while its original path exists is counted as a success with no
error and no mutation — and reverting a manifest whose records are all in
that already-reverted state (e.g. a second revert of a fully reverted
manifest, re-pointed at its archived copy) succeeds with every record a
success, zero failures and zero warnings. -/
theorem c8_idempotent_revert (st : St) (m : Manifest) (src : MSrc) (verify : Bool)
    (hm : storeAt st.store src = some m)
    (hall : ∀ r ∈ m.original_state,
      pexists st.fs r.new_path = false ∧ pexists st.fs r.original_path = true) :
    (∀ r ∈ m.original_state,
      revertRecordStep m.root_path verify st r =
        (st, [Ev.alreadyReverted r.original_path], 1, [], [])) ∧
    ∃ res,
      (revert_organization st src true verify).2.2 =
        .ok (.done (decide (0 < res.successful_reverts)) res) ∧
      res.successful_reverts = m.original_state.length ∧
      res.failed_reverts = [] ∧
      res.integrity_warnings = [] := by
  constructor
  · intro r hr
    obtain ⟨hnew, horig⟩ := hall r hr
    unfold revertRecordStep
    dsimp only
    have hnot : (!pexists st.fs r.new_path) = true := by rw [hnew]; rfl
    rw [hnot]
    simp only [if_true]
    rw [horig]
    simp only [if_true]
  · unfold revert_organization
    rw [hm]
    dsimp only
    rw [revertLoop_already_reverted m.root_path verify m.original_state st hall]
    simp only [Bool.not_true, Bool.false_eq_true, if_false]
    dsimp only
    rcases hclean : cleanup_empty_folders st.fs m.folders_created with ⟨fs2, cleaned⟩
    dsimp only
    unfold archive_manifest
    dsimp only
    rw [hm]
    dsimp only
    exact ⟨⟨m.original_state.length, [], [], cleaned⟩, rfl, rfl, rfl, rfl⟩

/-- A one-record manifest in fully reverted state, reachable only through
its archived copy (as after a completed first revert). -/
def mC8 : Manifest :=
  { timestamp := 0, root_path := "/r",
    original_state :=
      [{ original_path := ["a.txt"], new_path := ["W", "a.txt"],
         file_hash := some 1, size := 2, modified := 3 }],
    total_moves := 1, folders_created := ["W"] }

def stC8 : St :=
  { fs := [(["a.txt"], Entry.file 1 2 3)],
    store := { manifest := none, archives := [(7, mC8)], results := none },
    clock := 9 }

/-- C8 witness: the theorem applied to a second revert of the archived
manifest `mC8` over a filesystem where the file is back at its original
path. -/
theorem c8_witness :
    (∀ r ∈ mC8.original_state,
      revertRecordStep mC8.root_path true stC8 r =
        (stC8, [Ev.alreadyReverted r.original_path], 1, [], [])) ∧
    ∃ res,
      (revert_organization stC8 (.archived 7) true true).2.2 =
        .ok (.done (decide (0 < res.successful_reverts)) res) ∧
      res.successful_reverts = mC8.original_state.length ∧
      res.failed_reverts = [] ∧
      res.integrity_warnings = [] :=
  c8_idempotent_revert stC8 mC8 (.archived 7) true rfl (by decide)

/-! ## Filesystem lemma kit -/

lemma pexists_append (l₁ l₂ : FS) (p : FPath) :
    pexists (l₁ ++ l₂) p = (pexists l₁ p || pexists l₂ p) := by
  unfold pexists
  exact List.any_append

lemma isPrefixOf_self (p : FPath) : p.isPrefixOf p = true :=
  List.isPrefixOf_iff_prefix.mpr (List.prefix_refl p)

lemma mem_of_entryAt_some (fs : FS) (p : FPath) (e : Entry)
    (h : entryAt fs p = some e) : (p, e) ∈ fs := by
  unfold entryAt at h
  cases hf : fs.find? (fun kv => kv.1 == p) with
  | none => rw [hf] at h; simp at h
  | some kv =>
      rw [hf] at h
      have h2 : kv.2 = e := Option.some.inj h
      have hmem := List.mem_of_find?_eq_some hf
      have hkey := @List.find?_some (FPath × Entry) (fun x => x.1 == p) kv fs hf
      have hk : kv.1 = p := by simpa using hkey
      have hkv : kv = (p, e) := by
        cases kv with
        | mk a b =>
            simp only at hk h2
            rw [hk, h2]
      rw [← hkv]
      exact hmem

lemma pexists_of_entryAt_some (fs : FS) (p : FPath) (e : Entry)
    (h : entryAt fs p = some e) : pexists fs p = true := by
  unfold pexists
  rw [List.any_eq_true]
  exact ⟨(p, e), mem_of_entryAt_some fs p e h, isPrefixOf_self p⟩

lemma entryAt_eq_none_of_pexists_false (fs : FS) (p : FPath)
    (h : pexists fs p = false) : entryAt fs p = none := by
  cases he : entryAt fs p with
  | none => rfl
  | some e =>
      rw [pexists_of_entryAt_some fs p e he] at h
      exact absurd h (by simp)

lemma no_key_of_pexists_false (fs : FS) (p : FPath)
    (h : pexists fs p = false) : ∀ kv ∈ fs, p.isPrefixOf kv.1 = false := by
  intro kv hkv
  unfold pexists at h
  rw [List.any_eq_false] at h
  have := h kv hkv
  cases hb : p.isPrefixOf kv.1 with
  | true => exact absurd hb this
  | false => rfl

lemma isDirAt_false_of_pexists_false (fs : FS) (p : FPath)
    (h : pexists fs p = false) : isDirAt fs p = false := by
  unfold isDirAt
  rw [entryAt_eq_none_of_pexists_false fs p h]
  exact h

lemma entryAt_append_left (l₁ l₂ : FS) (p : FPath) (e : Entry)
    (h : entryAt l₁ p = some e) : entryAt (l₁ ++ l₂) p = some e := by
  unfold entryAt at *
  rw [List.find?_append]
  cases hf : l₁.find? (fun kv => kv.1 == p) with
  | none => rw [hf] at h; simp at h
  | some kv =>
      rw [hf] at h
      rw [Option.or]
      exact h

lemma entryAt_append_right (l₁ l₂ : FS) (p : FPath)
    (h : entryAt l₁ p = none) : entryAt (l₁ ++ l₂) p = entryAt l₂ p := by
  unfold entryAt at *
  rw [List.find?_append]
  cases hf : l₁.find? (fun kv => kv.1 == p) with
  | none => rw [Option.or]
  | some kv => rw [hf] at h; simp at h

lemma entryAt_filter (P : FPath × Entry → Bool) (fs : FS) (q : FPath)
    (hq : ∀ kv ∈ fs, kv.1 = q → P kv = true) :
    entryAt (fs.filter P) q = entryAt fs q := by
  induction fs with
  | nil => rfl
  | cons kv rest ih =>
      have ih' := ih (fun x hx hxq => hq x (List.mem_cons_of_mem kv hx) hxq)
      by_cases hkey : (kv.1 == q) = true
      · have hkpos : (fun x : FPath × Entry => x.1 == q) kv = true := hkey
        have hk : kv.1 = q := by simpa using hkey
        have hp : P kv = true := hq kv (List.mem_cons_self kv rest) hk
        rw [List.filter_cons, hp]
        simp only [if_true]
        unfold entryAt
        rw [@List.find?_cons_of_pos (FPath × Entry) (fun x => x.1 == q) kv
            (List.filter P rest) hkpos,
          @List.find?_cons_of_pos (FPath × Entry) (fun x => x.1 == q) kv rest hkpos]
      · have hkey' : (kv.1 == q) = false := by
          cases hb : (kv.1 == q) with
          | true => exact absurd hb hkey
          | false => rfl
        have hkneg : ¬ ((fun x : FPath × Entry => x.1 == q) kv = true) := by
          show ¬ ((kv.1 == q) = true)
          rw [hkey']
          simp
        have hstep : entryAt (kv :: rest) q = entryAt rest q := by
          unfold entryAt
          rw [@List.find?_cons_of_neg (FPath × Entry) (fun x => x.1 == q) kv rest hkneg]
        rw [hstep, ← ih']
        rw [List.filter_cons]
        by_cases hp : P kv = true
        · rw [hp]
          simp only [if_true]
          unfold entryAt
          rw [@List.find?_cons_of_neg (FPath × Entry) (fun x => x.1 == q) kv
              (List.filter P rest) hkneg]
        · have hp' : P kv = false := by
            cases hb : P kv with
            | true => exact absurd hb hp
            | false => rfl
          rw [hp']
          simp only [Bool.false_eq_true, if_false]

lemma filter_key_eq_singleton (fs : FS) (q : FPath) (e : Entry)
    (hnd : (fs.map Prod.fst).Nodup) (he : entryAt fs q = some e) :
    fs.filter (fun kv => kv.1 == q) = [(q, e)] := by
  induction fs with
  | nil => simp [entryAt] at he
  | cons kv rest ih =>
      cases hk : (kv.1 == q) with
      | true =>
          have hkpos : (fun x : FPath × Entry => x.1 == q) kv = true := hk
          have hkq : kv.1 = q := by simpa using hk
          have he' : kv.2 = e := by
            unfold entryAt at he
            rw [@List.find?_cons_of_pos (FPath × Entry) (fun x => x.1 == q) kv
                rest hkpos] at he
            simpa using he
          have hnotin : ∀ x ∈ rest, (x.1 == q) = false := by
            intro x hx
            have : kv.1 ∉ rest.map Prod.fst := (List.nodup_cons.mp hnd).1
            cases hb : (x.1 == q) with
            | true =>
                have hxq : x.1 = q := by simpa using hb
                exact absurd (by rw [hkq, ← hxq]; exact List.mem_map_of_mem Prod.fst hx) this
            | false => rfl
          rw [List.filter_cons, hk]
          simp only [if_true]
          rw [List.filter_eq_nil_iff.mpr (by intro x hx; rw [hnotin x hx]; simp)]
          have : kv = (q, e) := by
            cases kv with
            | mk a b => simp only at hkq he'; rw [hkq, he']
          rw [this]
      | false =>
          have hkneg : ¬ ((fun x : FPath × Entry => x.1 == q) kv = true) := by
            show ¬ ((kv.1 == q) = true)
            rw [hk]
            simp
          have he' : entryAt rest q = some e := by
            unfold entryAt at he
            rw [@List.find?_cons_of_neg (FPath × Entry) (fun x => x.1 == q) kv
                rest hkneg] at he
            exact he
          rw [List.filter_cons, hk]
          simp only [Bool.false_eq_true, if_false]
          exact ih (List.nodup_cons.mp hnd).2 he'

/-- Shape of `mkdirsChain`: it only appends fresh directory entries taken
from the chain. -/
lemma mkdirsChain_shape :
    ∀ (l : List FPath) (fs fs' : FS), mkdirsChain fs l = .ok fs' →
      ∃ extra : FS, fs' = fs ++ extra ∧
        ∀ kv ∈ extra, kv.2 = Entry.dir ∧ kv.1 ∈ l ∧ pexists fs kv.1 = false
  | [], fs, fs', h => by
      refine ⟨[], ?_, by intro kv hkv; simp at hkv⟩
      have : fs = fs' := Except.ok.inj h
      rw [← this, List.append_nil]
  | q :: rest, fs, fs', h => by
      unfold mkdirsChain at h
      cases he : entryAt fs q with
      | some e =>
          cases e with
          | dir =>
              rw [he] at h
              obtain ⟨extra, hsh, hprop⟩ := mkdirsChain_shape rest fs fs' h
              exact ⟨extra, hsh, fun kv hkv =>
                ⟨(hprop kv hkv).1, List.mem_cons_of_mem q (hprop kv hkv).2.1,
                  (hprop kv hkv).2.2⟩⟩
          | file d s t => rw [he] at h; exact absurd h (by simp)
      | none =>
          rw [he] at h
          by_cases hex : pexists fs q = true
          · rw [hex] at h
            simp only [if_true] at h
            obtain ⟨extra, hsh, hprop⟩ := mkdirsChain_shape rest fs fs' h
            exact ⟨extra, hsh, fun kv hkv =>
              ⟨(hprop kv hkv).1, List.mem_cons_of_mem q (hprop kv hkv).2.1,
                (hprop kv hkv).2.2⟩⟩
          · have hex' : pexists fs q = false := by
              cases hb : pexists fs q with
              | true => exact absurd hb hex
              | false => rfl
            rw [hex'] at h
            simp only [Bool.false_eq_true, if_false] at h
            obtain ⟨extra, hsh, hprop⟩ :=
              mkdirsChain_shape rest (fs ++ [(q, Entry.dir)]) fs' h
            refine ⟨(q, Entry.dir) :: extra, ?_, ?_⟩
            · rw [hsh, List.append_assoc, List.singleton_append]
            · intro kv hkv
              rcases List.mem_cons.mp hkv with hh | ht
              · rw [hh]
                exact ⟨rfl, List.mem_cons_self q rest, hex'⟩
              · have hp := hprop kv ht
                refine ⟨hp.1, List.mem_cons_of_mem q hp.2.1, ?_⟩
                have := hp.2.2
                rw [pexists_append] at this
                cases hb : pexists fs kv.1 with
                | true => rw [hb] at this; simp at this
                | false => rfl

/-- `makedirs` preserves every existing entry. -/
lemma makedirs_preserves (fs : FS) (p : FPath) (fs' : FS)
    (h : makedirs fs p = .ok fs') :
    ∀ q e, entryAt fs q = some e → entryAt fs' q = some e := by
  obtain ⟨extra, hsh, _⟩ := mkdirsChain_shape (ancestors p) fs fs' h
  intro q e he
  rw [hsh]
  exact entryAt_append_left fs extra q e he

/-- paths in `ancestors p` are nonempty prefixes of `p`. -/
lemma mem_ancestors (q p : FPath) (h : q ∈ ancestors p) :
    q <+: p ∧ q ≠ [] := by
  unfold ancestors at h
  rw [List.mem_map] at h
  obtain ⟨k, hk, hq⟩ := h
  rw [List.mem_range] at hk
  constructor
  · rw [← hq]
    exact List.take_prefix (k + 1) p
  · rw [← hq]
    intro hnil
    have hlen : min (k + 1) p.length = 0 := by
      have hcongr := congrArg List.length hnil
      rwa [List.length_take, List.length_nil] at hcongr
    omega

/-- After a successful `makedirs fs p`, existence grows only by prefixes of
`p`. -/
lemma pexists_makedirs_false (fs : FS) (p : FPath) (fs' : FS) (q : FPath)
    (h : makedirs fs p = .ok fs')
    (hq : pexists fs q = false)
    (hnp : ∀ a, a <+: p → a ≠ [] → q.isPrefixOf a = false) :
    pexists fs' q = false := by
  obtain ⟨extra, hsh, hprop⟩ := mkdirsChain_shape (ancestors p) fs fs' h
  rw [hsh, pexists_append, hq]
  simp only [Bool.false_or]
  cases hb : pexists extra q with
  | false => rfl
  | true =>
      unfold pexists at hb
      rw [List.any_eq_true] at hb
      obtain ⟨kv, hkv, hpref⟩ := hb
      obtain ⟨hanc, hnil⟩ := mem_ancestors kv.1 p (hprop kv hkv).2.1
      rw [hnp kv.1 hanc hnil] at hpref
      exact absurd hpref (by simp)

/-! ## `shutil_move` characterization (single-node source, fresh target) -/

lemma filterMap_move_eq (src dst : FPath) :
    ∀ fs : FS, (∀ kv ∈ fs, src.isPrefixOf kv.1 = true → kv.1 = src) →
      fs.filterMap (fun kv =>
        if src.isPrefixOf kv.1 then some (dst ++ kv.1.drop src.length, kv.2)
        else none) =
      (fs.filter (fun kv => src.isPrefixOf kv.1)).map (fun kv => (dst, kv.2))
  | [], _ => rfl
  | kv :: rest, hext => by
      have ih := filterMap_move_eq src dst rest
        (fun x hx => hext x (List.mem_cons_of_mem kv hx))
      cases hp : src.isPrefixOf kv.1 with
      | true =>
          have hk : kv.1 = src := hext kv (List.mem_cons_self kv rest) hp
          rw [List.filterMap_cons, List.filter_cons, hp]
          simp only [if_true]
          rw [List.map_cons, ih, hk, List.drop_length, List.append_nil]
      | false =>
          rw [List.filterMap_cons, List.filter_cons, hp]
          simp only [Bool.false_eq_true, if_false]
          exact ih

lemma filter_no_dst (src dst : FPath) (fs : FS)
    (hdst : pexists fs dst = false) :
    fs.filter (fun kv => !(src.isPrefixOf kv.1) && !(kv.1 == dst)) =
    fs.filter (fun kv => !(src.isPrefixOf kv.1)) := by
  apply List.filter_congr
  intro kv hkv
  have hbd : (kv.1 == dst) = false := by
    cases hb : (kv.1 == dst) with
    | false => rfl
    | true =>
        have hk : kv.1 = dst := by simpa using hb
        have := no_key_of_pexists_false fs dst hdst kv hkv
        rw [hk] at this
        rw [isPrefixOf_self dst] at this
        exact absurd this (by simp)
  rw [hbd]
  simp

/-- With no strict descendant of `src` and a fresh destination, `shutil.move`
filters out the source entries and re-keys them to `dst`. -/
lemma shutil_move_spec (fs : FS) (src dst : FPath)
    (hext : ∀ kv ∈ fs, src.isPrefixOf kv.1 = true → kv.1 = src)
    (hdst : pexists fs dst = false) :
    shutil_move fs src dst =
      fs.filter (fun kv => !(src.isPrefixOf kv.1)) ++
        (fs.filter (fun kv => src.isPrefixOf kv.1)).map (fun kv => (dst, kv.2)) := by
  unfold shutil_move
  rw [isDirAt_false_of_pexists_false fs dst hdst]
  simp only [Bool.false_eq_true, if_false]
  rw [filterMap_move_eq src dst fs hext, filter_no_dst src dst fs hdst]

lemma entryAt_of_all_keys_ne (l : FS) (q : FPath)
    (h : ∀ kv ∈ l, kv.1 ≠ q) : entryAt l q = none := by
  unfold entryAt
  have hfind : l.find? (fun kv => kv.1 == q) = none :=
    List.find?_eq_none.mpr (fun x hx hcontra => h x hx (by simpa using hcontra))
  rw [hfind]
  rfl

lemma entryAt_filter_none (P : FPath × Entry → Bool) (fs : FS) (q : FPath)
    (h : ∀ kv ∈ fs, kv.1 = q → P kv = false) :
    entryAt (fs.filter P) q = none := by
  apply entryAt_of_all_keys_ne
  intro kv hkv hk
  have hmem := List.mem_of_mem_filter hkv
  have hP := List.of_mem_filter hkv
  rw [h kv hmem hk] at hP
  exact absurd hP (by simp)

lemma pexists_filter_false (P : FPath × Entry → Bool) (fs : FS) (q : FPath)
    (h : pexists fs q = false) : pexists (fs.filter P) q = false := by
  unfold pexists
  rw [List.any_eq_false]
  intro kv hkv
  have hmem := List.mem_of_mem_filter hkv
  have := no_key_of_pexists_false fs q h kv hmem
  simp [this]

lemma entryAt_singleton_self (p : FPath) (e : Entry) :
    entryAt [(p, e)] p = some e := by
  unfold entryAt
  have hkpos : (fun x : FPath × Entry => x.1 == p) (p, e) = true := by
    show (p == p) = true
    exact beq_self_eq_true p
  rw [@List.find?_cons_of_pos (FPath × Entry) (fun x => x.1 == p) (p, e) [] hkpos]
  rfl

/-- After `shutil_move fs src dst` (single-node source with entry `e`, fresh
`dst`): the entry sits at `dst`, `src` is gone, and every other entry is
untouched. -/
lemma shutil_move_entries (fs : FS) (src dst : FPath) (e : Entry)
    (hnd : (fs.map Prod.fst).Nodup)
    (hext : ∀ kv ∈ fs, src.isPrefixOf kv.1 = true → kv.1 = src)
    (hdst : pexists fs dst = false)
    (he : entryAt fs src = some e)
    (hsd : src ≠ dst) :
    entryAt (shutil_move fs src dst) dst = some e ∧
    entryAt (shutil_move fs src dst) src = none ∧
    (∀ q e', entryAt fs q = some e' → q ≠ src →
      entryAt (shutil_move fs src dst) q = some e') := by
  rw [shutil_move_spec fs src dst hext hdst]
  have hfilt : fs.filter (fun kv => src.isPrefixOf kv.1) =
      fs.filter (fun kv => kv.1 == src) := by
    apply List.filter_congr
    intro kv hkv
    cases hp : src.isPrefixOf kv.1 with
    | true =>
        have := hext kv hkv hp
        rw [this]
        exact (beq_self_eq_true src).symm
    | false =>
        cases hb : (kv.1 == src) with
        | false => rfl
        | true =>
            have hk : kv.1 = src := by simpa using hb
            rw [hk, isPrefixOf_self src] at hp
            exact absurd hp (by simp)
  have hsing : fs.filter (fun kv => src.isPrefixOf kv.1) = [(src, e)] := by
    rw [hfilt]
    exact filter_key_eq_singleton fs src e hnd he
  refine ⟨?_, ?_, ?_⟩
  · have hnone : entryAt (fs.filter (fun kv => !(src.isPrefixOf kv.1))) dst = none :=
      entryAt_eq_none_of_pexists_false _ dst
        (pexists_filter_false _ fs dst hdst)
    rw [entryAt_append_right _ _ dst hnone, hsing]
    exact entryAt_singleton_self dst e
  · have hnone : entryAt (fs.filter (fun kv => !(src.isPrefixOf kv.1))) src = none := by
      apply entryAt_filter_none
      intro kv _ hk
      rw [hk, isPrefixOf_self src]
      rfl
    rw [entryAt_append_right _ _ src hnone, hsing]
    apply entryAt_of_all_keys_ne
    intro kv hkv
    rw [List.map_cons] at hkv
    rcases List.mem_cons.mp hkv with hh | ht
    · rw [hh]
      exact fun hctr => hsd hctr.symm
    · simp at ht
  · intro q e' he' hqs
    have hpq : src.isPrefixOf q = false := by
      cases hp : src.isPrefixOf q with
      | false => rfl
      | true =>
          have := hext (q, e') (mem_of_entryAt_some fs q e' he') hp
          exact absurd this hqs
    have : entryAt (fs.filter (fun kv => !(src.isPrefixOf kv.1))) q = some e' := by
      rw [entryAt_filter]
      · exact he'
      · intro kv _ hk
        rw [hk, hpq]
        rfl
    exact entryAt_append_left _ _ q e' this

/-! ## Claim C2: conflict handling never destroys pre-existing entries -/

lemma prefix_snoc (a p : FPath) (x : String) (h : a <+: p ++ [x]) :
    a = p ++ [x] ∨ a <+: p := by
  by_cases hlen : a.length ≤ p.length
  · right
    have ha := List.prefix_iff_eq_take.mp h
    rw [List.take_append_eq_append_take] at ha
    rw [Nat.sub_eq_zero_of_le hlen] at ha
    rw [List.take_zero, List.append_nil] at ha
    rw [ha]
    exact List.take_prefix a.length p
  · left
    apply h.eq_of_length_le
    have := h.length_le
    rw [List.length_append, List.length_singleton] at *
    omega

lemma dropLast_pref (l : FPath) : l.dropLast <+: l := by
  rw [List.dropLast_eq_take]
  exact List.take_prefix _ l

lemma pexists_filter_out (p : FPath) (fs : FS) :
    pexists (fs.filter (fun kv => !(p.isPrefixOf kv.1))) p = false := by
  unfold pexists
  rw [List.any_eq_false]
  intro kv hkv
  have hP := List.of_mem_filter hkv
  cases hb : p.isPrefixOf kv.1 with
  | false => simp
  | true => rw [hb] at hP; exact absurd hP (by simp)

/-- With nodup keys and no descendant of `src`, the `src`-rooted part of the
filesystem is the single source entry. -/
lemma filter_src_singleton (fs : FS) (src : FPath) (e : Entry)
    (hnd : (fs.map Prod.fst).Nodup)
    (hext : ∀ kv ∈ fs, src.isPrefixOf kv.1 = true → kv.1 = src)
    (he : entryAt fs src = some e) :
    fs.filter (fun kv => src.isPrefixOf kv.1) = [(src, e)] := by
  have hfilt : fs.filter (fun kv => src.isPrefixOf kv.1) =
      fs.filter (fun kv => kv.1 == src) := by
    apply List.filter_congr
    intro kv hkv
    cases hp : src.isPrefixOf kv.1 with
    | true =>
        rw [hext kv hkv hp]
        exact (beq_self_eq_true src).symm
    | false =>
        cases hb : (kv.1 == src) with
        | false => rfl
        | true =>
            have hk : kv.1 = src := by simpa using hb
            rw [hk, isPrefixOf_self src] at hp
            exact absurd hp (by simp)
  rw [hfilt]
  exact filter_key_eq_singleton fs src e hnd he

lemma shutil_move_nodup (fs : FS) (src dst : FPath) (e : Entry)
    (hnd : (fs.map Prod.fst).Nodup)
    (hext : ∀ kv ∈ fs, src.isPrefixOf kv.1 = true → kv.1 = src)
    (hdst : pexists fs dst = false)
    (he : entryAt fs src = some e) :
    ((shutil_move fs src dst).map Prod.fst).Nodup := by
  rw [shutil_move_spec fs src dst hext hdst,
    filter_src_singleton fs src e hnd hext he]
  have hfiltnd : ((fs.filter (fun kv => !(src.isPrefixOf kv.1))).map Prod.fst).Nodup :=
    List.Nodup.sublist (List.Sublist.map Prod.fst (List.filter_sublist fs)) hnd
  rw [List.map_append]
  rw [List.nodup_append]
  refine ⟨hfiltnd, by simp, ?_⟩
  intro a ha hb
  simp only [List.map_map, List.map_cons, List.map_nil, List.mem_singleton] at hb
  rw [List.mem_map] at ha
  obtain ⟨kv, hkv, hfa⟩ := ha
  have hmem := List.mem_of_mem_filter hkv
  have hnk := no_key_of_pexists_false fs dst hdst kv hmem
  rw [hb] at hfa
  rw [hfa] at hnk
  rw [isPrefixOf_self dst] at hnk
  exact absurd hnk (by simp)

/-- Conflict-backup names have the same number of components as the path. -/
lemma conflictBackupDest_length (p : FPath) (t : Nat) (h : p ≠ []) :
    (conflictBackupDest p t).length = p.length := by
  unfold conflictBackupDest parentDir
  rw [List.length_append, List.length_singleton, List.length_dropLast]
  have : 0 < p.length := List.length_pos.mpr h
  omega

lemma timestampedDest_length (p : FPath) (t : Nat) (h : p ≠ []) :
    (timestampedDest p t).length = p.length := by
  unfold timestampedDest parentDir
  rw [List.length_append, List.length_singleton, List.length_dropLast]
  have : 0 < p.length := List.length_pos.mpr h
  omega

/-- **C2** (amended): conflict handling preserves pre-existing entries
provided the generated conflict names are themselves unoccupied.  Execution:
when a move's destination exists and the timestamped rename target is fresh,
the incoming file is renamed by inserting the timestamp into its filename and
moved there, the source entry disappears from its old path, and every
pre-existing entry other than the source — in particular the destination's
occupant — is untouched.  Revert: when a record's original path is occupied
and the `_conflict_` rename target is fresh, the occupant is renamed to the
conflict name, the reverted file wins the original slot, and every other
pre-existing entry survives.  (When a generated name collides with an
existing file, `shutil.move` overwrites it — see the counterexample.) -/
theorem c2_conflict_preservation
    (root : String) (st : St) (mv : Move) (src : FPath) (nps : String) (e : Entry)
    (fs1 : FS)
    (h1 : resolveSource mv = .ok src)
    (h2 : mv.new_path = some nps)
    (h3 : entryAt st.fs src = some e)
    (h4 : makedirs st.fs (parentDir (splitPath nps)) = .ok fs1)
    (h5 : pexists fs1 (splitPath nps) = true)
    (h6 : pexists fs1 (timestampedDest (splitPath nps) st.clock) = false)
    (h7 : ∀ kv ∈ fs1, src.isPrefixOf kv.1 = true → kv.1 = src)
    (h8 : (fs1.map Prod.fst).Nodup)
    (root2 : String) (v : Bool) (st2 : St) (r : FileRecord) (ecur eorig : Entry)
    (gs1 : FS)
    (g1 : entryAt st2.fs r.new_path = some ecur)
    (g2 : makedirs st2.fs (parentDir r.original_path) = .ok gs1)
    (g3 : entryAt gs1 r.original_path = some eorig)
    (g4 : pexists gs1 (conflictBackupDest r.original_path st2.clock) = false)
    (g5 : ∀ kv ∈ gs1, r.original_path.isPrefixOf kv.1 = true → kv.1 = r.original_path)
    (g6 : ∀ kv ∈ gs1, r.new_path.isPrefixOf kv.1 = true → kv.1 = r.new_path)
    (g7 : (gs1.map Prod.fst).Nodup)
    (g8 : r.new_path ≠ r.original_path)
    (g9 : r.original_path ≠ []) :
    (execMoveStep root false st mv =
      ({ st with
          fs := shutil_move fs1 src (timestampedDest (splitPath nps) st.clock),
          clock := st.clock + 1 },
        [Ev.renamedConflict (splitPath nps) (timestampedDest (splitPath nps) st.clock),
          Ev.movedFile src nps], none) ∧
      entryAt (shutil_move fs1 src (timestampedDest (splitPath nps) st.clock))
        (timestampedDest (splitPath nps) st.clock) = some e ∧
      entryAt (shutil_move fs1 src (timestampedDest (splitPath nps) st.clock)) src =
        none ∧
      ∀ q e', entryAt st.fs q = some e' → q ≠ src →
        entryAt (shutil_move fs1 src (timestampedDest (splitPath nps) st.clock)) q =
          some e') ∧
    (revertRecordStep root2 v st2 r =
      ({ st2 with
          fs := shutil_move
            (shutil_move gs1 r.original_path
              (conflictBackupDest r.original_path st2.clock))
            r.new_path r.original_path,
          clock := st2.clock + 1 },
        (if v && r.file_hash.isSome &&
            !verify_file_integrity st2.fs r.new_path r.file_hash then
          [(root2 ++ "/" ++ joinPath r.new_path,
            "File has been modified since organization")]
        else []).map (fun _ => Ev.integrityWarning r.new_path) ++
          [Ev.conflictBackedUp r.original_path
            (conflictBackupDest r.original_path st2.clock),
          Ev.revertedFile r.new_path r.original_path],
        1, [],
        if v && r.file_hash.isSome &&
            !verify_file_integrity st2.fs r.new_path r.file_hash then
          [(root2 ++ "/" ++ joinPath r.new_path,
            "File has been modified since organization")]
        else []) ∧
      entryAt (shutil_move
          (shutil_move gs1 r.original_path
            (conflictBackupDest r.original_path st2.clock))
          r.new_path r.original_path) r.original_path = some ecur ∧
      entryAt (shutil_move
          (shutil_move gs1 r.original_path
            (conflictBackupDest r.original_path st2.clock))
          r.new_path r.original_path)
        (conflictBackupDest r.original_path st2.clock) = some eorig ∧
      ∀ q e', entryAt st2.fs q = some e' → q ≠ r.new_path → q ≠ r.original_path →
        entryAt (shutil_move
            (shutil_move gs1 r.original_path
              (conflictBackupDest r.original_path st2.clock))
            r.new_path r.original_path) q = some e') := by
  have hsrc1 : entryAt fs1 src = some e :=
    makedirs_preserves st.fs _ fs1 h4 src e h3
  have hpexsrc : pexists st.fs src = true := pexists_of_entryAt_some _ _ _ h3
  have hsd : src ≠ timestampedDest (splitPath nps) st.clock := by
    intro hc
    have hp1 := pexists_of_entryAt_some fs1 src e hsrc1
    rw [hc] at hp1
    rw [h6] at hp1
    exact absurd hp1 (by simp)
  have em := shutil_move_entries fs1 src (timestampedDest (splitPath nps) st.clock)
    e h8 h7 h6 hsrc1 hsd
  constructor
  · refine ⟨?_, em.1, em.2.1, ?_⟩
    · unfold execMoveStep
      rw [h1]
      dsimp only
      rw [h2]
      dsimp only
      have hnot : (!pexists st.fs src) = false := by rw [hpexsrc]; rfl
      rw [hnot]
      simp only [Bool.false_eq_true, if_false]
      rw [h4]
      dsimp only
      rw [h5]
      simp only [Bool.not_false, Bool.and_self, if_true]
    · intro q e' he' hq
      exact em.2.2 q e' (makedirs_preserves st.fs _ fs1 h4 q e' he') hq
  · have hcur1 : entryAt gs1 r.new_path = some ecur :=
      makedirs_preserves st2.fs _ gs1 g2 _ _ g1
    have hpexcur : pexists st2.fs r.new_path = true :=
      pexists_of_entryAt_some _ _ _ g1
    have hpexorig : pexists gs1 r.original_path = true :=
      pexists_of_entryAt_some _ _ _ g3
    have hone : r.original_path ≠ conflictBackupDest r.original_path st2.clock := by
      intro hc
      have hp1 := hpexorig
      rw [hc] at hp1
      rw [g4] at hp1
      exact absurd hp1 (by simp)
    have hcnb : r.new_path ≠ conflictBackupDest r.original_path st2.clock := by
      intro hc
      have hp1 := pexists_of_entryAt_some gs1 r.new_path ecur hcur1
      rw [hc] at hp1
      rw [g4] at hp1
      exact absurd hp1 (by simp)
    have em1 := shutil_move_entries gs1 r.original_path
      (conflictBackupDest r.original_path st2.clock) eorig g7 g5 g4 g3 hone
    have hnd2 := shutil_move_nodup gs1 r.original_path
      (conflictBackupDest r.original_path st2.clock) eorig g7 g5 g4 g3
    have hgs2 : shutil_move gs1 r.original_path
        (conflictBackupDest r.original_path st2.clock) =
        gs1.filter (fun kv => !(r.original_path.isPrefixOf kv.1)) ++
          [(conflictBackupDest r.original_path st2.clock, eorig)] := by
      rw [shutil_move_spec gs1 r.original_path _ g5 g4,
        filter_src_singleton gs1 r.original_path eorig g7 g5 g3]
      rfl
    have hext2 : ∀ kv ∈ shutil_move gs1 r.original_path
        (conflictBackupDest r.original_path st2.clock),
        r.new_path.isPrefixOf kv.1 = true → kv.1 = r.new_path := by
      rw [hgs2]
      intro kv hkv hp
      rcases List.mem_append.mp hkv with hl | hr
      · exact g6 kv (List.mem_of_mem_filter hl) hp
      · have hkb : kv = (conflictBackupDest r.original_path st2.clock, eorig) := by
          simpa using hr
        rw [hkb] at hp
        have hpre := List.isPrefixOf_iff_prefix.mp hp
        rcases prefix_snoc r.new_path (parentDir r.original_path) _ hpre with heq | hpp
        · exact absurd heq hcnb
        · have hco : r.new_path <+: r.original_path :=
            hpp.trans (dropLast_pref r.original_path)
          have := g6 (r.original_path, eorig)
            (mem_of_entryAt_some gs1 r.original_path eorig g3)
            (List.isPrefixOf_iff_prefix.mpr hco)
          exact absurd this.symm g8
    have hpb : r.original_path.isPrefixOf
        (conflictBackupDest r.original_path st2.clock) = false := by
      cases hb : r.original_path.isPrefixOf
          (conflictBackupDest r.original_path st2.clock) with
      | false => rfl
      | true =>
          have hpre := List.isPrefixOf_iff_prefix.mp hb
          have := hpre.eq_of_length
            (by rw [conflictBackupDest_length r.original_path st2.clock g9])
          exact absurd this hone
    have hdst2 : pexists (shutil_move gs1 r.original_path
        (conflictBackupDest r.original_path st2.clock)) r.original_path = false := by
      rw [hgs2, pexists_append, pexists_filter_out]
      simp only [Bool.false_or]
      unfold pexists
      simp [hpb]
    have he2 : entryAt (shutil_move gs1 r.original_path
        (conflictBackupDest r.original_path st2.clock)) r.new_path = some ecur :=
      em1.2.2 r.new_path ecur hcur1 g8
    have em2 := shutil_move_entries
      (shutil_move gs1 r.original_path (conflictBackupDest r.original_path st2.clock))
      r.new_path r.original_path ecur hnd2 hext2 hdst2 he2 g8
    refine ⟨?_, em2.1, ?_, ?_⟩
    · unfold revertRecordStep
      dsimp only
      have hnot : (!pexists st2.fs r.new_path) = false := by rw [hpexcur]; rfl
      rw [hnot]
      simp only [Bool.false_eq_true, if_false]
      rw [g2]
      dsimp only
      rw [hpexorig]
      simp only [if_true]
    · exact em2.2.2 (conflictBackupDest r.original_path st2.clock) eorig em1.1
        (fun hc => hcnb hc.symm)
    · intro q e' he' hq1 hq2
      exact em2.2.2 q e'
        (em1.2.2 q e' (makedirs_preserves st2.fs _ gs1 g2 q e' he') hq2) hq1

/-- State with a pre-existing file at the timestamped conflict name
`Work/a_1.txt` the execution is about to generate. -/
def stC2c : St :=
  { fs := [(["a.txt"], Entry.file 1 5 0), (["Work"], Entry.dir),
      (["Work", "a.txt"], Entry.file 2 3 0), (["Work", "a_1.txt"], Entry.file 3 5 0)],
    store := emptyStore, clock := 0 }

/-- C2 counterexample: the destination is occupied, so the incoming file is
renamed to `Work/a_1.txt` — but a pre-existing file (content 3) already
lives there and `shutil.move` overwrites it: after execution no entry holds
content 3 anywhere, refuting "no pre-existing file's content is destroyed". -/
theorem c2_counterexample :
    dataAt stC2c.fs ["Work", "a_1.txt"] = some 3 ∧
    pexists stC2c.fs ["Work", "a.txt"] = true ∧
    ((perform_file_moves "/r" stC2c planC5 false).1.fs.all
      (fun kv => !(kv.2 == Entry.file 3 5 0))) = true := by
  refine ⟨rfl, rfl, ?_⟩
  decide

/-- Concrete execution-conflict state for the C2 witness. -/
def stC2w : St :=
  { fs := [(["a.txt"], Entry.file 1 5 0), (["Work"], Entry.dir),
      (["Work", "a.txt"], Entry.file 2 3 0)],
    store := emptyStore, clock := 0 }

/-- Concrete revert-conflict state for the C2 witness. -/
def stC2r : St :=
  { fs := [(["b.txt"], Entry.file 9 1 0), (["Store"], Entry.dir),
      (["Store", "b.txt"], Entry.file 5 1 0)],
    store := emptyStore, clock := 4 }

/-- The manifest record being reverted in the C2 witness. -/
def rC2 : FileRecord :=
  { original_path := ["b.txt"], new_path := ["Store", "b.txt"],
    file_hash := some 5, size := 1, modified := 0 }

/-- C2 witness: the theorem applied to concrete conflicting states — the
incoming file lands under the timestamped name with the occupant intact, and
the reverted file wins the original slot with the occupant saved under the
conflict name. -/
theorem c2_witness :
    entryAt (shutil_move stC2w.fs ["a.txt"] ["Work", "a_0.txt"]) ["Work", "a_0.txt"] =
      some (Entry.file 1 5 0) ∧
    entryAt (shutil_move stC2w.fs ["a.txt"] ["Work", "a_0.txt"]) ["Work", "a.txt"] =
      some (Entry.file 2 3 0) ∧
    entryAt (shutil_move (shutil_move stC2r.fs ["b.txt"] ["b_conflict_4.txt"])
      ["Store", "b.txt"] ["b.txt"]) ["b.txt"] = some (Entry.file 5 1 0) ∧
    entryAt (shutil_move (shutil_move stC2r.fs ["b.txt"] ["b_conflict_4.txt"])
      ["Store", "b.txt"] ["b.txt"]) ["b_conflict_4.txt"] = some (Entry.file 9 1 0) := by
  have h := c2_conflict_preservation "/r" stC2w mvC5 ["a.txt"] "Work/a.txt"
    (Entry.file 1 5 0) stC2w.fs rfl rfl rfl rfl rfl rfl (by decide) (by decide)
    "/r" true stC2r rC2 (Entry.file 5 1 0) (Entry.file 9 1 0) stC2r.fs
    rfl rfl rfl rfl (by decide) (by decide) (by decide) (by decide) (by decide)
  exact ⟨h.1.2.1,
    h.1.2.2.2 ["Work", "a.txt"] (Entry.file 2 3 0) rfl (by decide),
    h.2.2.1, h.2.2.2.1⟩

/-! ## Claim C1: round trip (execute then revert).

Infrastructure: the prefix closure of the directories a plan touches, and the
well-formedness invariants (`Nodup` keys, files are leaf keys, nonempty keys)
that `perform_file_moves` and `revert_organization` maintain. -/

/-- Is an entry a regular file? -/
def isFileEntry : Entry → Bool
  | .file _ _ _ => true
  | .dir => false

/-- No key of the tree strictly extends a regular-file key (files are
leaves, as on a real filesystem). -/
def FilesAreLeaves (fs : FS) : Prop :=
  ∀ kv ∈ fs, ∀ kv2 ∈ fs,
    isFileEntry kv.2 = true → kv.1.isPrefixOf kv2.1 = true → kv2.1 = kv.1

/-- The destination path of a move (`root / move["new_path"]`). -/
def destPath (m : Move) : FPath := splitPath (m.new_path.getD "")

/-- The directories a plan's execution and revert create with `os.makedirs`:
the planned folders, the destination parents, and the source parents. -/
def moveTargets (plan : Plan) : List FPath :=
  (plan.folders.getD []).map splitPath ++
    (plan.moves.getD []).map (fun m => parentDir (destPath m)) ++
    (plan.moves.getD []).map (fun m => parentDir (resolvedSrc m))

/-- Prefix closure of the touched directories: every nonempty ancestor of
every target.  All directory keys either run ever creates lie in here. -/
def targetClosure (plan : Plan) : List FPath :=
  ((moveTargets plan).map ancestors).flatten

lemma mem_join_ancestors (L : List FPath) (t a : FPath)
    (ht : t ∈ L) (ha : a ∈ ancestors t) : a ∈ (L.map ancestors).flatten := by
  rw [List.mem_flatten]
  exact ⟨ancestors t, List.mem_map_of_mem ancestors ht, ha⟩

lemma mem_ancestors_of_pref (a p : FPath) (h : a <+: p) (hne : a ≠ []) :
    a ∈ ancestors p := by
  unfold ancestors
  rw [List.mem_map]
  refine ⟨a.length - 1, ?_, ?_⟩
  · rw [List.mem_range]
    have h1 : 0 < a.length := List.length_pos.mpr hne
    have h2 : a.length ≤ p.length := h.length_le
    omega
  · have h1 : 0 < a.length := List.length_pos.mpr hne
    have hk : a.length - 1 + 1 = a.length := by omega
    rw [hk]
    exact (List.prefix_iff_eq_take.mp h).symm

lemma ancestors_trans (a c t : FPath) (hc : c ∈ ancestors t) (ha : a ∈ ancestors c) :
    a ∈ ancestors t := by
  obtain ⟨hct, _⟩ := mem_ancestors c t hc
  obtain ⟨hac, hane⟩ := mem_ancestors a c ha
  exact mem_ancestors_of_pref a t (hac.trans hct) hane

/-- The target closure is closed under nonempty ancestors. -/
lemma targetClosure_closed (plan : Plan) :
    ∀ c ∈ targetClosure plan, ∀ a ∈ ancestors c, a ∈ targetClosure plan := by
  intro c hc a ha
  unfold targetClosure at hc ⊢
  rw [List.mem_flatten] at hc
  obtain ⟨l, hl, hcl⟩ := hc
  rw [List.mem_map] at hl
  obtain ⟨t, ht, hlt⟩ := hl
  rw [← hlt] at hcl
  exact mem_join_ancestors _ t a ht (ancestors_trans a c t hcl ha)

lemma targetClosure_ne (plan : Plan) :
    ∀ c ∈ targetClosure plan, c ≠ [] := by
  intro c hc
  unfold targetClosure at hc
  rw [List.mem_flatten] at hc
  obtain ⟨l, hl, hcl⟩ := hc
  rw [List.mem_map] at hl
  obtain ⟨t, _, hlt⟩ := hl
  rw [← hlt] at hcl
  exact (mem_ancestors c t hcl).2

/-- With `Nodup` keys, list membership determines `entryAt`. -/
lemma entryAt_of_mem_nodup (fs : FS) (p : FPath) (e : Entry)
    (hnd : (fs.map Prod.fst).Nodup) (hmem : (p, e) ∈ fs) :
    entryAt fs p = some e := by
  induction fs with
  | nil => exact absurd hmem (List.not_mem_nil _)
  | cons kv rest ih =>
      rcases List.mem_cons.mp hmem with hh | ht
      · have hkpos : (fun x : FPath × Entry => x.1 == p) kv = true := by
          rw [← hh]
          exact beq_self_eq_true p
        unfold entryAt
        rw [@List.find?_cons_of_pos (FPath × Entry) (fun x => x.1 == p) kv rest hkpos]
        rw [← hh]
        rfl
      · have hp_rest : p ∈ rest.map Prod.fst := by
          rw [List.mem_map]
          exact ⟨(p, e), ht, rfl⟩
        have hkv_not : kv.1 ∉ rest.map Prod.fst := (List.nodup_cons.mp hnd).1
        have hkneg : ¬ ((fun x : FPath × Entry => x.1 == p) kv = true) := by
          show ¬ ((kv.1 == p) = true)
          intro hb
          have hk : kv.1 = p := by simpa using hb
          rw [hk] at hkv_not
          exact hkv_not hp_rest
        unfold entryAt
        rw [@List.find?_cons_of_neg (FPath × Entry) (fun x => x.1 == p) kv rest hkneg]
        exact ih (List.nodup_cons.mp hnd).2 ht

lemma isFileAt_true_entry (fs : FS) (p : FPath) (h : isFileAt fs p = true) :
    ∃ d s t, entryAt fs p = some (Entry.file d s t) := by
  unfold isFileAt at h
  cases he : entryAt fs p with
  | none => rw [he] at h; simp at h
  | some e =>
      cases e with
      | file d s t => exact ⟨d, s, t, rfl⟩
      | dir => rw [he] at h; simp at h

/-- A regular-file key cannot lie in a set of paths known to hold no file. -/
lemma no_file_key_in_CL (CL : List FPath) (fs : FS)
    (hnd : (fs.map Prod.fst).Nodup)
    (hCL : ∀ q ∈ CL, isFileAt fs q = false)
    (kv : FPath × Entry) (hkv : kv ∈ fs) (hfile : isFileEntry kv.2 = true)
    (hin : kv.1 ∈ CL) : False := by
  have hent : entryAt fs kv.1 = some kv.2 := entryAt_of_mem_nodup fs kv.1 kv.2 hnd hkv
  have hff := hCL kv.1 hin
  unfold isFileAt at hff
  rw [hent] at hff
  cases hk : kv.2 with
  | file d s t => rw [hk] at hff; simp at hff
  | dir => rw [hk] at hfile; simp [isFileEntry] at hfile

lemma not_prefix_of_closure (CL : List FPath)
    (hCLc : ∀ c ∈ CL, ∀ a ∈ ancestors c, a ∈ CL)
    (q a : FPath) (ha : a ∈ CL) (hq : q ∉ CL) (hqne : q ≠ []) :
    q.isPrefixOf a = false := by
  cases hb : q.isPrefixOf a with
  | false => rfl
  | true =>
      exact absurd
        (hCLc a ha q (mem_ancestors_of_pref q a (List.isPrefixOf_iff_prefix.mp hb) hqne))
        hq

/-- A strict prefix of `p` is a prefix of `p`'s parent. -/
lemma strict_prefix_parent (a p : FPath) (h : a <+: p) (hap : a ≠ p)
    (hpne : p ≠ []) : a <+: parentDir p := by
  have hsplit := List.dropLast_append_getLast hpne
  rw [← hsplit] at h
  rcases prefix_snoc a p.dropLast (p.getLast hpne) h with h1 | h2
  · exact absurd (by rw [h1, hsplit]) hap
  · exact h2

/-- A path is never a prefix of a prefix of its own parent. -/
lemma not_prefix_of_parent (dst a : FPath) (h : a <+: parentDir dst)
    (hdne : dst ≠ []) : dst.isPrefixOf a = false := by
  cases hb : dst.isPrefixOf a with
  | false => rfl
  | true =>
      exfalso
      have h1 : dst.length ≤ a.length := (List.isPrefixOf_iff_prefix.mp hb).length_le
      have h2 : a.length ≤ (parentDir dst).length := h.length_le
      have h3 : (parentDir dst).length = dst.length - 1 := by
        unfold parentDir
        rw [List.length_dropLast]
      have h4 : 0 < dst.length := List.length_pos.mpr hdne
      omega

/-- Appending directory entries never makes a file appear. -/
lemma isFileAt_append_dirs (fs extra : FS) (p : FPath)
    (hd : ∀ kv ∈ extra, kv.2 = Entry.dir) (h : isFileAt fs p = false) :
    isFileAt (fs ++ extra) p = false := by
  unfold isFileAt at h ⊢
  cases he : entryAt fs p with
  | some e =>
      rw [he] at h
      rw [entryAt_append_left fs extra p e he]
      cases e with
      | file d s t => simp at h
      | dir => rfl
  | none =>
      rw [entryAt_append_right fs extra p he]
      cases he2 : entryAt extra p with
      | none => rfl
      | some e =>
          have hmem := mem_of_entryAt_some extra p e he2
          have hde : e = Entry.dir := hd (p, e) hmem
          rw [hde]

/-- `mkdirsChain` preserves `Nodup` keys. -/
lemma mkdirsChain_nodup :
    ∀ (l : List FPath) (fs fs' : FS), mkdirsChain fs l = .ok fs' →
      (fs.map Prod.fst).Nodup → (fs'.map Prod.fst).Nodup
  | [], fs, fs', h, hnd => by
      have heq : fs = fs' := Except.ok.inj h
      rwa [← heq]
  | q :: rest, fs, fs', h, hnd => by
      unfold mkdirsChain at h
      cases he : entryAt fs q with
      | some e =>
          cases e with
          | dir =>
              rw [he] at h
              exact mkdirsChain_nodup rest fs fs' h hnd
          | file d s t => rw [he] at h; exact absurd h (by simp)
      | none =>
          rw [he] at h
          by_cases hex : pexists fs q = true
          · rw [hex] at h
            simp only [if_true] at h
            exact mkdirsChain_nodup rest fs fs' h hnd
          · have hex' : pexists fs q = false := by
              cases hb : pexists fs q with
              | true => exact absurd hb hex
              | false => rfl
            rw [hex'] at h
            simp only [Bool.false_eq_true, if_false] at h
            refine mkdirsChain_nodup rest (fs ++ [(q, Entry.dir)]) fs' h ?_
            rw [List.map_append, List.nodup_append]
            refine ⟨hnd, by simp, ?_⟩
            intro a ha hb
            simp only [List.map_cons, List.map_nil, List.mem_singleton] at hb
            rw [List.mem_map] at ha
            obtain ⟨kv, hkv, hfa⟩ := ha
            have hnk := no_key_of_pexists_false fs q hex' kv hkv
            rw [hb] at hfa
            rw [hfa] at hnk
            rw [isPrefixOf_self q] at hnk
            exact absurd hnk (by simp)

/-- `mkdirsChain` succeeds whenever no chain element is a regular file. -/
lemma mkdirsChain_ok :
    ∀ (l : List FPath) (fs : FS), (∀ q ∈ l, isFileAt fs q = false) →
      ∃ fs', mkdirsChain fs l = .ok fs'
  | [], fs, _ => ⟨fs, rfl⟩
  | q :: rest, fs, h => by
      have hq := h q (List.mem_cons_self q rest)
      have hrest : ∀ x ∈ rest, isFileAt fs x = false :=
        fun x hx => h x (List.mem_cons_of_mem q hx)
      unfold mkdirsChain
      cases he : entryAt fs q with
      | some e =>
          cases e with
          | dir => exact mkdirsChain_ok rest fs hrest
          | file d s t =>
              unfold isFileAt at hq
              rw [he] at hq
              simp at hq
      | none =>
          by_cases hex : pexists fs q = true
          · rw [hex]
            simp only [if_true]
            exact mkdirsChain_ok rest fs hrest
          · have hex' : pexists fs q = false := by
              cases hb : pexists fs q with
              | true => exact absurd hb hex
              | false => rfl
            rw [hex']
            simp only [Bool.false_eq_true, if_false]
            refine mkdirsChain_ok rest (fs ++ [(q, Entry.dir)]) ?_
            intro x hx
            refine isFileAt_append_dirs fs [(q, Entry.dir)] x ?_ (hrest x hx)
            intro kv hkv
            rw [List.mem_singleton] at hkv
            rw [hkv]

/-- `os.makedirs` succeeds whenever no ancestor is a regular file. -/
lemma makedirs_ok (fs : FS) (p : FPath)
    (h : ∀ q ∈ ancestors p, isFileAt fs q = false) :
    ∃ fs', makedirs fs p = .ok fs' :=
  mkdirsChain_ok (ancestors p) fs h

/-- A successful `makedirs` towards a directory inside the closure preserves
all four well-formedness invariants. -/
lemma makedirs_invariants (CL : List FPath) (fs fs' : FS) (p : FPath)
    (h : makedirs fs p = .ok fs')
    (hsub : ∀ a ∈ ancestors p, a ∈ CL)
    (hCLc : ∀ c ∈ CL, ∀ a ∈ ancestors c, a ∈ CL)
    (hCLne : ∀ c ∈ CL, c ≠ [])
    (hnd : (fs.map Prod.fst).Nodup)
    (hL : FilesAreLeaves fs)
    (hne : ∀ kv ∈ fs, kv.1 ≠ [])
    (hCL : ∀ q ∈ CL, isFileAt fs q = false) :
    (fs'.map Prod.fst).Nodup ∧ FilesAreLeaves fs' ∧ (∀ kv ∈ fs', kv.1 ≠ []) ∧
      (∀ q ∈ CL, isFileAt fs' q = false) := by
  obtain ⟨extra, hsh, hprop⟩ := mkdirsChain_shape (ancestors p) fs fs' h
  have hdirs : ∀ kv ∈ extra, kv.2 = Entry.dir := fun kv hkv => (hprop kv hkv).1
  have hinCL : ∀ kv ∈ extra, kv.1 ∈ CL := fun kv hkv => hsub kv.1 (hprop kv hkv).2.1
  refine ⟨mkdirsChain_nodup (ancestors p) fs fs' h hnd, ?_, ?_, ?_⟩
  · rw [hsh]
    intro kv hkv kv2 hkv2 hfile hpref
    rcases List.mem_append.mp hkv with hk1 | hk2
    · rcases List.mem_append.mp hkv2 with h21 | h22
      · exact hL kv hk1 kv2 h21 hfile hpref
      · by_cases heq : kv2.1 = kv.1
        · exact heq
        · exfalso
          have hprefp : kv.1 <+: kv2.1 := List.isPrefixOf_iff_prefix.mp hpref
          have hkCL : kv.1 ∈ CL :=
            hCLc kv2.1 (hinCL kv2 h22) kv.1
              (mem_ancestors_of_pref _ _ hprefp (hne kv hk1))
          exact no_file_key_in_CL CL fs hnd hCL kv hk1 hfile hkCL
    · exfalso
      have hd := hdirs kv hk2
      rw [hd] at hfile
      simp [isFileEntry] at hfile
  · rw [hsh]
    intro kv hkv
    rcases List.mem_append.mp hkv with hk1 | hk2
    · exact hne kv hk1
    · exact hCLne kv.1 (hinCL kv hk2)
  · intro q hq
    rw [hsh]
    exact isFileAt_append_dirs fs extra q hdirs (hCL q hq)

/-- `makedirs` towards a closure directory cannot create a path outside the
closure. -/
lemma pexists_makedirs_false_CL (CL : List FPath)
    (hCLc : ∀ c ∈ CL, ∀ a ∈ ancestors c, a ∈ CL)
    (fs fs' : FS) (p q : FPath)
    (h : makedirs fs p = .ok fs') (hsub : ∀ a ∈ ancestors p, a ∈ CL)
    (hq : pexists fs q = false) (hqCL : q ∉ CL) (hqne : q ≠ []) :
    pexists fs' q = false :=
  pexists_makedirs_false fs p fs' q h hq (fun a hap hane =>
    not_prefix_of_closure CL hCLc q a
      (hsub a (mem_ancestors_of_pref a p hap hane)) hqCL hqne)

/-- `shutil.move` of a leaf file to a fresh destination keeps paths other
than the destination file-free. -/
lemma isFileAt_false_move (fs : FS) (src dst q : FPath) (e : Entry)
    (hnd : (fs.map Prod.fst).Nodup)
    (hext : ∀ kv ∈ fs, src.isPrefixOf kv.1 = true → kv.1 = src)
    (hdst : pexists fs dst = false)
    (he : entryAt fs src = some e)
    (hq : isFileAt fs q = false) (hqd : q ≠ dst) :
    isFileAt (shutil_move fs src dst) q = false := by
  have hspec2 : shutil_move fs src dst =
      fs.filter (fun kv => !(src.isPrefixOf kv.1)) ++ [(dst, e)] := by
    rw [shutil_move_spec fs src dst hext hdst, filter_src_singleton fs src e hnd hext he]
    rfl
  rw [hspec2]
  cases hf : entryAt (fs.filter (fun kv => !(src.isPrefixOf kv.1))) q with
  | some e' =>
      have hmem := mem_of_entryAt_some _ q e' hf
      have hfs : (q, e') ∈ fs := List.mem_of_mem_filter hmem
      have hent : entryAt fs q = some e' := entryAt_of_mem_nodup fs q e' hnd hfs
      unfold isFileAt at hq ⊢
      rw [hent] at hq
      rw [entryAt_append_left _ _ q e' hf]
      cases e' with
      | file d s t => simp at hq
      | dir => rfl
  | none =>
      unfold isFileAt
      rw [entryAt_append_right _ _ q hf]
      rw [entryAt_of_all_keys_ne [(dst, e)] q ?keys]
      case keys =>
        intro kv hkv
        rw [List.mem_singleton] at hkv
        rw [hkv]
        exact fun hc => hqd hc.symm

/-- Full characterization of one leaf-file `shutil.move` step under the
well-formedness invariants: the moved entry, the vacated source, every frame
property, and the invariants themselves. -/
lemma move_invariants (CL : List FPath) (fs : FS) (src dst : FPath)
    (d s t : Nat)
    (hCLc : ∀ c ∈ CL, ∀ a ∈ ancestors c, a ∈ CL)
    (hnd : (fs.map Prod.fst).Nodup)
    (hL : FilesAreLeaves fs)
    (hne : ∀ kv ∈ fs, kv.1 ≠ [])
    (hCL : ∀ q ∈ CL, isFileAt fs q = false)
    (he : entryAt fs src = some (Entry.file d s t))
    (hdst : pexists fs dst = false)
    (hdstCL : dst ∉ CL)
    (hdanc : ∀ a ∈ ancestors (parentDir dst), a ∈ CL)
    (hdne : dst ≠ []) (hsne : src ≠ []) (hsrcCL : src ∉ CL) :
    ((shutil_move fs src dst).map Prod.fst).Nodup ∧
    FilesAreLeaves (shutil_move fs src dst) ∧
    (∀ kv ∈ shutil_move fs src dst, kv.1 ≠ []) ∧
    (∀ q ∈ CL, isFileAt (shutil_move fs src dst) q = false) ∧
    entryAt (shutil_move fs src dst) dst = some (Entry.file d s t) ∧
    entryAt (shutil_move fs src dst) src = none ∧
    pexists (shutil_move fs src dst) src = false ∧
    (∀ q e', entryAt fs q = some e' → q ≠ src →
      entryAt (shutil_move fs src dst) q = some e') ∧
    (∀ q, pexists fs q = false → q.isPrefixOf dst = false →
      pexists (shutil_move fs src dst) q = false) := by
  have hext : ∀ kv ∈ fs, src.isPrefixOf kv.1 = true → kv.1 = src :=
    fun kv hkv hp =>
      hL (src, Entry.file d s t) (mem_of_entryAt_some fs src _ he) kv hkv rfl hp
  have hsd : src ≠ dst := by
    intro hcontra
    have hpex := pexists_of_entryAt_some fs src _ he
    rw [hcontra, hdst] at hpex
    exact absurd hpex (by simp)
  have hents := shutil_move_entries fs src dst (Entry.file d s t) hnd hext hdst he hsd
  have hspec2 : shutil_move fs src dst =
      fs.filter (fun kv => !(src.isPrefixOf kv.1)) ++ [(dst, Entry.file d s t)] := by
    rw [shutil_move_spec fs src dst hext hdst,
      filter_src_singleton fs src (Entry.file d s t) hnd hext he]
    rfl
  have hndm := shutil_move_nodup fs src dst (Entry.file d s t) hnd hext hdst he
  refine ⟨hndm, ?_, ?_, ?_, hents.1, hents.2.1, ?_, hents.2.2, ?_⟩
  · rw [hspec2]
    intro kv hkv kv2 hkv2 hfile hpref
    rcases List.mem_append.mp hkv with hk1 | hk2
    · rcases List.mem_append.mp hkv2 with h21 | h22
      · exact hL kv (List.mem_of_mem_filter hk1) kv2 (List.mem_of_mem_filter h21)
          hfile hpref
      · rw [List.mem_singleton] at h22
        have h21d : kv2.1 = dst := by rw [h22]
        by_cases heq : kv2.1 = kv.1
        · exact heq
        · exfalso
          have hmemf : kv ∈ fs := List.mem_of_mem_filter hk1
          have hprefp : kv.1 <+: dst := by
            rw [← h21d]
            exact List.isPrefixOf_iff_prefix.mp hpref
          have hkpar : kv.1 <+: parentDir dst :=
            strict_prefix_parent kv.1 dst hprefp
              (by rw [← h21d]; exact fun hc => heq hc.symm) hdne
          have hkCL : kv.1 ∈ CL :=
            hdanc kv.1 (mem_ancestors_of_pref _ _ hkpar (hne kv hmemf))
          exact no_file_key_in_CL CL fs hnd hCL kv hmemf hfile hkCL
    · rw [List.mem_singleton] at hk2
      rcases List.mem_append.mp hkv2 with h21 | h22
      · exfalso
        have hmemf : kv2 ∈ fs := List.mem_of_mem_filter h21
        have hpexd : pexists fs dst = true := by
          unfold pexists
          rw [List.any_eq_true]
          refine ⟨kv2, hmemf, ?_⟩
          have : kv.1 = dst := by rw [hk2]
          rw [← this]
          exact hpref
        rw [hdst] at hpexd
        exact absurd hpexd (by simp)
      · rw [List.mem_singleton] at h22
        rw [h22, hk2]
  · rw [hspec2]
    intro kv hkv
    rcases List.mem_append.mp hkv with hk1 | hk2
    · exact hne kv (List.mem_of_mem_filter hk1)
    · rw [List.mem_singleton] at hk2
      rw [hk2]
      exact hdne
  · intro q hq
    have hqd : q ≠ dst := fun hc => hdstCL (hc ▸ hq)
    exact isFileAt_false_move fs src dst q (Entry.file d s t) hnd hext hdst he
      (hCL q hq) hqd
  · rw [hspec2, pexists_append]
    rw [pexists_filter_out src fs]
    simp only [Bool.false_or]
    have hsp : src.isPrefixOf dst = false := by
      cases hb : src.isPrefixOf dst with
      | false => rfl
      | true =>
          exfalso
          have hpp : src <+: dst := List.isPrefixOf_iff_prefix.mp hb
          have hpar : src <+: parentDir dst := strict_prefix_parent src dst hpp hsd hdne
          exact hsrcCL (hdanc src (mem_ancestors_of_pref _ _ hpar hsne))
    unfold pexists
    simp [hsp]
  · intro q hq hqd
    rw [hspec2, pexists_append]
    rw [pexists_filter_false _ fs q hq]
    simp only [Bool.false_or]
    unfold pexists
    simp [hqd]

/-- The non-dry folder-creation loop under the invariants: it succeeds,
touches neither store nor clock, only adds closure directories, and
preserves every entry and every non-existence outside the closure. -/
lemma execFoldersLoop_spec (CL : List FPath)
    (hCLc : ∀ c ∈ CL, ∀ a ∈ ancestors c, a ∈ CL)
    (hCLne : ∀ c ∈ CL, c ≠ []) :
    ∀ (fl : List String) (st : St) (created : List String) (tr : Trace),
      (∀ f ∈ fl, ∀ a ∈ ancestors (splitPath f), a ∈ CL) →
      (st.fs.map Prod.fst).Nodup →
      FilesAreLeaves st.fs →
      (∀ kv ∈ st.fs, kv.1 ≠ []) →
      (∀ q ∈ CL, isFileAt st.fs q = false) →
      ∃ st' created' tr',
        execFoldersLoop false st fl created tr = .ok (st', created', tr') ∧
        st'.store = st.store ∧ st'.clock = st.clock ∧
        (st'.fs.map Prod.fst).Nodup ∧ FilesAreLeaves st'.fs ∧
        (∀ kv ∈ st'.fs, kv.1 ≠ []) ∧ (∀ q ∈ CL, isFileAt st'.fs q = false) ∧
        (∀ q e', entryAt st.fs q = some e' → entryAt st'.fs q = some e') ∧
        (∀ q, q ≠ [] → pexists st.fs q = false → q ∉ CL → pexists st'.fs q = false)
  | [], st, created, tr, _, hnd, hL, hne, hCL =>
      ⟨st, created, tr, rfl, rfl, rfl, hnd, hL, hne, hCL,
        fun _ _ h => h, fun _ _ h _ => h⟩
  | f :: rest, st, created, tr, hsub, hnd, hL, hne, hCL => by
      have hsubf := hsub f (List.mem_cons_self f rest)
      have hsubr : ∀ x ∈ rest, ∀ a ∈ ancestors (splitPath x), a ∈ CL :=
        fun x hx => hsub x (List.mem_cons_of_mem f hx)
      unfold execFoldersLoop
      dsimp only
      by_cases hex : pexists st.fs (splitPath f) = true
      · rw [hex]
        simp only [if_true]
        exact execFoldersLoop_spec CL hCLc hCLne rest st created tr hsubr hnd hL hne hCL
      · have hex' : pexists st.fs (splitPath f) = false := by
          cases hb : pexists st.fs (splitPath f) with
          | true => exact absurd hb hex
          | false => rfl
        rw [hex']
        simp only [Bool.false_eq_true, if_false]
        obtain ⟨fs1, hmk⟩ :=
          makedirs_ok st.fs (splitPath f) (fun q hq => hCL q (hsubf q hq))
        rw [hmk]
        obtain ⟨nd1, L1, ne1, CL1⟩ :=
          makedirs_invariants CL st.fs fs1 (splitPath f) hmk hsubf hCLc hCLne
            hnd hL hne hCL
        obtain ⟨st', c', t', heq, hsto, hclk, nd2, L2, ne2, CL2, hpres, hnex⟩ :=
          execFoldersLoop_spec CL hCLc hCLne rest { st with fs := fs1 }
            (if created.contains f then created else created ++ [f])
            (tr ++ [Ev.createdFolder f false]) hsubr nd1 L1 ne1 CL1
        refine ⟨st', c', t', heq, hsto, hclk, nd2, L2, ne2, CL2, ?_, ?_⟩
        · intro q e' hq
          exact hpres q e' (makedirs_preserves st.fs (splitPath f) fs1 hmk q e' hq)
        · intro q hqne hq hqCL
          exact hnex q hqne
            (pexists_makedirs_false_CL CL hCLc st.fs fs1 (splitPath f) q hmk hsubf
              hq hqCL hqne) hqCL

/-- The non-dry move loop under the disjointness and well-formedness
hypotheses: every move succeeds (no failures), the store and clock are
untouched, each destination ends up holding exactly the source's entry while
the source path is vacated, and entries/non-existence away from the touched
paths are preserved. -/
lemma execMovesLoop_spec (root : String) (CL : List FPath)
    (hCLc : ∀ c ∈ CL, ∀ a ∈ ancestors c, a ∈ CL)
    (hCLne : ∀ c ∈ CL, c ≠ []) :
    ∀ (todo : List Move) (st : St),
      (∀ m ∈ todo, resolveSource m = .ok (resolvedSrc m)) →
      (∀ m ∈ todo, m.new_path.isSome = true) →
      (∀ m ∈ todo, ∃ d s t, entryAt st.fs (resolvedSrc m) = some (Entry.file d s t)) →
      (∀ m ∈ todo, pexists st.fs (destPath m) = false) →
      (todo.map resolvedSrc).Nodup →
      (todo.map destPath).Nodup →
      (∀ m ∈ todo, destPath m ∉ CL) →
      (∀ m ∈ todo, ∀ a ∈ ancestors (parentDir (destPath m)), a ∈ CL) →
      (∀ m ∈ todo, resolvedSrc m ∉ CL) →
      (∀ m ∈ todo, ∀ m' ∈ todo, destPath m ≠ resolvedSrc m') →
      (∀ m ∈ todo, resolvedSrc m ≠ [] ∧ destPath m ≠ []) →
      (st.fs.map Prod.fst).Nodup →
      FilesAreLeaves st.fs →
      (∀ kv ∈ st.fs, kv.1 ≠ []) →
      (∀ q ∈ CL, isFileAt st.fs q = false) →
      ∃ st' tr,
        execMovesLoop root false st todo = (st', tr, todo.length, []) ∧
        st'.store = st.store ∧ st'.clock = st.clock ∧
        (st'.fs.map Prod.fst).Nodup ∧ FilesAreLeaves st'.fs ∧
        (∀ kv ∈ st'.fs, kv.1 ≠ []) ∧ (∀ q ∈ CL, isFileAt st'.fs q = false) ∧
        (∀ m ∈ todo, entryAt st'.fs (destPath m) = entryAt st.fs (resolvedSrc m) ∧
          pexists st'.fs (resolvedSrc m) = false) ∧
        (∀ q e', entryAt st.fs q = some e' → (∀ m ∈ todo, q ≠ resolvedSrc m) →
          entryAt st'.fs q = some e') ∧
        (∀ q, q ≠ [] → pexists st.fs q = false → q ∉ CL →
          (∀ m ∈ todo, q.isPrefixOf (destPath m) = false) → pexists st'.fs q = false)
  | [], st, _, _, _, _, _, _, _, _, _, _, _, hnd, hL, hne, hCL =>
      ⟨st, [], rfl, rfl, rfl, hnd, hL, hne, hCL,
        fun m hm => absurd hm (List.not_mem_nil m),
        fun _ _ h _ => h, fun _ _ h _ _ => h⟩
  | mv :: rest, st, hW0, hW1, hW2, hW3, hW4, hW5, hW6, hW8, hW12, hW13, hWne,
      hnd, hL, hne, hCL => by
      have hmv : mv ∈ mv :: rest := List.mem_cons_self mv rest
      have hres := hW0 mv hmv
      obtain ⟨d, s, t, hent⟩ := hW2 mv hmv
      have hne8 := hWne mv hmv
      cases hnps : mv.new_path with
      | none =>
          exfalso
          have hs := hW1 mv hmv
          rw [hnps] at hs
          simp at hs
      | some nps =>
      have hdp : destPath mv = splitPath nps := by
        unfold destPath
        rw [hnps]
        rfl
      have hsubd : ∀ a ∈ ancestors (parentDir (splitPath nps)), a ∈ CL := by
        intro a ha
        refine hW8 mv hmv a ?_
        rw [hdp]
        exact ha
      obtain ⟨fs1, hmk⟩ := makedirs_ok st.fs (parentDir (splitPath nps))
        (fun q hq => hCL q (hsubd q hq))
      have hdstfresh : pexists st.fs (splitPath nps) = false := by
        have hh := hW3 mv hmv
        rwa [hdp] at hh
      have hdne' : splitPath nps ≠ [] := by
        have hh := hne8.2
        rwa [hdp] at hh
      have hconf : pexists fs1 (splitPath nps) = false :=
        pexists_makedirs_false st.fs (parentDir (splitPath nps)) fs1 (splitPath nps)
          hmk hdstfresh
          (fun a hap _ => not_prefix_of_parent (splitPath nps) a hap hdne')
      have hpex : pexists st.fs (resolvedSrc mv) = true :=
        pexists_of_entryAt_some st.fs _ _ hent
      have hstep : execMoveStep root false st mv =
          ({ st with fs := shutil_move fs1 (resolvedSrc mv) (splitPath nps) },
            [Ev.movedFile (resolvedSrc mv) nps], none) := by
        unfold execMoveStep
        rw [hres]
        dsimp only
        rw [hnps]
        dsimp only
        rw [hpex]
        simp only [Bool.not_true, Bool.false_eq_true, if_false]
        rw [hmk]
        dsimp only
        rw [hconf]
        simp only [Bool.false_and, Bool.false_eq_true, if_false]
      obtain ⟨nd1, L1, ne1, CL1⟩ :=
        makedirs_invariants CL st.fs fs1 (parentDir (splitPath nps)) hmk hsubd hCLc
          hCLne hnd hL hne hCL
      have hent1 : entryAt fs1 (resolvedSrc mv) = some (Entry.file d s t) :=
        makedirs_preserves st.fs _ fs1 hmk _ _ hent
      have hsrcCL : resolvedSrc mv ∉ CL := hW12 mv hmv
      have hdstCL : splitPath nps ∉ CL := by
        rw [← hdp]
        exact hW6 mv hmv
      obtain ⟨ndm, Lm, nem, CLm, hdstent, hsrcnone, hsrcpex, hpresm, hnexm⟩ :=
        move_invariants CL fs1 (resolvedSrc mv) (splitPath nps) d s t hCLc nd1 L1
          ne1 CL1 hent1 hconf hdstCL hsubd hdne' hne8.1 hsrcCL
      have hW4m : ((mv :: rest).map resolvedSrc).Nodup := hW4
      rw [List.map_cons] at hW4m
      have hsrc_notin : resolvedSrc mv ∉ rest.map resolvedSrc :=
        (List.nodup_cons.mp hW4m).1
      have hW5m : ((mv :: rest).map destPath).Nodup := hW5
      rw [List.map_cons] at hW5m
      have hdst_notin : destPath mv ∉ rest.map destPath :=
        (List.nodup_cons.mp hW5m).1
      have htail : ∀ m' ∈ rest, m' ∈ mv :: rest :=
        fun m' hm' => List.mem_cons_of_mem mv hm'
      have hW2r : ∀ m' ∈ rest, ∃ d' s' t',
          entryAt (shutil_move fs1 (resolvedSrc mv) (splitPath nps)) (resolvedSrc m') =
            some (Entry.file d' s' t') := by
        intro m' hm'
        obtain ⟨d', s', t', hent'⟩ := hW2 m' (htail m' hm')
        have hne2 : resolvedSrc m' ≠ resolvedSrc mv := by
          intro hcontra
          apply hsrc_notin
          rw [← hcontra]
          exact List.mem_map_of_mem resolvedSrc hm'
        exact ⟨d', s', t',
          hpresm _ _ (makedirs_preserves st.fs _ fs1 hmk _ _ hent') hne2⟩
      have hW3r : ∀ m' ∈ rest,
          pexists (shutil_move fs1 (resolvedSrc mv) (splitPath nps)) (destPath m') =
            false := by
        intro m' hm'
        have h0 := hW3 m' (htail m' hm')
        have hql : destPath m' ≠ [] := (hWne m' (htail m' hm')).2
        have hqCL : destPath m' ∉ CL := hW6 m' (htail m' hm')
        have h1 : pexists fs1 (destPath m') = false :=
          pexists_makedirs_false_CL CL hCLc st.fs fs1 (parentDir (splitPath nps)) _
            hmk hsubd h0 hqCL hql
        refine hnexm _ h1 ?_
        cases hb : (destPath m').isPrefixOf (splitPath nps) with
        | false => rfl
        | true =>
            exfalso
            have hpp : destPath m' <+: splitPath nps := List.isPrefixOf_iff_prefix.mp hb
            by_cases heq2 : destPath m' = splitPath nps
            · apply hdst_notin
              have heq3 : destPath m' = destPath mv := by rw [heq2, ← hdp]
              rw [← heq3]
              exact List.mem_map_of_mem destPath hm'
            · have hpar : destPath m' <+: parentDir (splitPath nps) :=
                strict_prefix_parent _ _ hpp heq2 hdne'
              exact hqCL (hsubd _ (mem_ancestors_of_pref _ _ hpar hql))
      obtain ⟨st', tr', hloop, hsto, hclk, nd', L', ne', CL', hmoved', F1', F2'⟩ :=
        execMovesLoop_spec root CL hCLc hCLne rest
          { st with fs := shutil_move fs1 (resolvedSrc mv) (splitPath nps) }
          (fun m' hm' => hW0 m' (htail m' hm'))
          (fun m' hm' => hW1 m' (htail m' hm'))
          hW2r hW3r
          (List.nodup_cons.mp hW4m).2
          (List.nodup_cons.mp hW5m).2
          (fun m' hm' => hW6 m' (htail m' hm'))
          (fun m' hm' => hW8 m' (htail m' hm'))
          (fun m' hm' => hW12 m' (htail m' hm'))
          (fun m' hm' m'' hm'' => hW13 m' (htail m' hm') m'' (htail m'' hm''))
          (fun m' hm' => hWne m' (htail m' hm'))
          ndm Lm nem CLm
      have hsrc_nopref : ∀ m' ∈ rest,
          (resolvedSrc mv).isPrefixOf (destPath m') = false := by
        intro m' hm'
        cases hb : (resolvedSrc mv).isPrefixOf (destPath m') with
        | false => rfl
        | true =>
            exfalso
            have hpp : resolvedSrc mv <+: destPath m' := List.isPrefixOf_iff_prefix.mp hb
            by_cases heq2 : resolvedSrc mv = destPath m'
            · exact hW13 m' (htail m' hm') mv hmv heq2.symm
            · have hql : destPath m' ≠ [] := (hWne m' (htail m' hm')).2
              have hpar : resolvedSrc mv <+: parentDir (destPath m') :=
                strict_prefix_parent _ _ hpp heq2 hql
              exact hsrcCL
                (hW8 m' (htail m' hm') _ (mem_ancestors_of_pref _ _ hpar hne8.1))
      refine ⟨st', [Ev.movedFile (resolvedSrc mv) nps] ++ tr', ?_, hsto, hclk,
        nd', L', ne', CL', ?_, ?_, ?_⟩
      · unfold execMovesLoop
        rw [hstep]
        dsimp only
        rw [hloop]
        dsimp only
        rw [List.length_cons, Nat.add_comm]
        simp
      · intro m hm
        rcases List.mem_cons.mp hm with hh | ht
        · rw [hh]
          constructor
          · rw [hent]
            refine F1' (destPath mv) (Entry.file d s t) ?_ ?_
            · rw [hdp]
              exact hdstent
            · exact fun m' hm' => hW13 mv hmv m' (htail m' hm')
          · exact F2' (resolvedSrc mv) hne8.1 hsrcpex hsrcCL hsrc_nopref
        · obtain ⟨d', s', t', hent'⟩ := hW2 m (htail m ht)
          have hne2 : resolvedSrc m ≠ resolvedSrc mv := by
            intro hcontra
            apply hsrc_notin
            rw [← hcontra]
            exact List.mem_map_of_mem resolvedSrc ht
          have h2 : entryAt (shutil_move fs1 (resolvedSrc mv) (splitPath nps))
              (resolvedSrc m) = some (Entry.file d' s' t') :=
            hpresm _ _ (makedirs_preserves st.fs _ fs1 hmk _ _ hent') hne2
          exact ⟨((hmoved' m ht).1).trans (h2.trans hent'.symm), (hmoved' m ht).2⟩
      · intro q e' hq hnot
        have hq1 := makedirs_preserves st.fs _ fs1 hmk q e' hq
        have hq2 := hpresm q e' hq1 (hnot mv hmv)
        exact F1' q e' hq2 (fun m' hm' => hnot m' (htail m' hm'))
      · intro q hqne hq hqCL hnopref
        have h1 := pexists_makedirs_false_CL CL hCLc st.fs fs1
          (parentDir (splitPath nps)) q hmk hsubd hq hqCL hqne
        have h2 : pexists (shutil_move fs1 (resolvedSrc mv) (splitPath nps)) q =
            false := by
          refine hnexm q h1 ?_
          have hh := hnopref mv hmv
          rwa [hdp] at hh
        exact F2' q hqne h2 hqCL (fun m' hm' => hnopref m' (htail m' hm'))

/-- The revert record loop on records whose moved-to entries are intact and
whose original paths are vacant: every record reverts successfully with no
failure and no integrity warning, the store and clock are untouched, each
original path receives exactly the entry that sat at the moved-to path, and
entries/non-existence away from the touched paths are preserved. -/
lemma revertLoop_spec (root : String) (verify : Bool) (CL : List FPath)
    (hCLc : ∀ c ∈ CL, ∀ a ∈ ancestors c, a ∈ CL)
    (hCLne : ∀ c ∈ CL, c ≠ []) :
    ∀ (rs : List FileRecord) (st : St),
      (∀ r ∈ rs, ∃ d s t, entryAt st.fs r.new_path = some (Entry.file d s t) ∧
        (r.file_hash.isSome = true → r.file_hash = some (sha256 d))) →
      (∀ r ∈ rs, pexists st.fs r.original_path = false) →
      (rs.map FileRecord.original_path).Nodup →
      (rs.map FileRecord.new_path).Nodup →
      (∀ r ∈ rs, r.new_path ∉ CL ∧ r.original_path ∉ CL) →
      (∀ r ∈ rs, ∀ a ∈ ancestors (parentDir r.original_path), a ∈ CL) →
      (∀ r ∈ rs, ∀ r' ∈ rs, r.original_path ≠ r'.new_path) →
      (∀ r ∈ rs, r.original_path ≠ [] ∧ r.new_path ≠ []) →
      (st.fs.map Prod.fst).Nodup →
      FilesAreLeaves st.fs →
      (∀ kv ∈ st.fs, kv.1 ≠ []) →
      (∀ q ∈ CL, isFileAt st.fs q = false) →
      ∃ st' tr,
        revertLoop root verify st rs = (st', tr, rs.length, [], []) ∧
        st'.store = st.store ∧ st'.clock = st.clock ∧
        (st'.fs.map Prod.fst).Nodup ∧ FilesAreLeaves st'.fs ∧
        (∀ kv ∈ st'.fs, kv.1 ≠ []) ∧ (∀ q ∈ CL, isFileAt st'.fs q = false) ∧
        (∀ r ∈ rs, entryAt st'.fs r.original_path = entryAt st.fs r.new_path) ∧
        (∀ q e', entryAt st.fs q = some e' → (∀ r ∈ rs, q ≠ r.new_path) →
          entryAt st'.fs q = some e') ∧
        (∀ q, q ≠ [] → pexists st.fs q = false → q ∉ CL →
          (∀ r ∈ rs, q.isPrefixOf r.original_path = false) → pexists st'.fs q = false)
  | [], st, _, _, _, _, _, _, _, _, hnd, hL, hne, hCL =>
      ⟨st, [], rfl, rfl, rfl, hnd, hL, hne, hCL,
        fun r hr => absurd hr (List.not_mem_nil r),
        fun _ _ h _ => h, fun _ _ h _ _ => h⟩
  | r :: rest, st, hR0, hR1, hR2, hR3, hR4, hR5, hR6, hRne, hnd, hL, hne, hCL => by
      have hrm : r ∈ r :: rest := List.mem_cons_self r rest
      obtain ⟨d, s, t, hcur, hfh⟩ := hR0 r hrm
      have hne8 := hRne r hrm
      have hpexc : pexists st.fs r.new_path = true :=
        pexists_of_entryAt_some st.fs _ _ hcur
      have hwc : (verify && r.file_hash.isSome &&
          !(verify_file_integrity st.fs r.new_path r.file_hash)) = false := by
        cases hv : verify with
        | false => rfl
        | true =>
            cases hfhs : r.file_hash with
            | none => rfl
            | some hv2 =>
                have hfh2 : r.file_hash = some (sha256 d) := hfh (by rw [hfhs]; rfl)
                rw [hfhs] at hfh2
                have hv2d : hv2 = sha256 d := Option.some.inj hfh2
                have hvi : verify_file_integrity st.fs r.new_path (some hv2) = true := by
                  unfold verify_file_integrity
                  rw [hpexc]
                  simp only [Bool.not_true, Option.isNone_some, Bool.or_self,
                    Bool.false_eq_true, if_false]
                  unfold calculate_file_hash
                  rw [hcur, hv2d]
                  simp
                rw [hvi]
                rfl
      have hsubo : ∀ a ∈ ancestors (parentDir r.original_path), a ∈ CL := hR5 r hrm
      obtain ⟨fs1, hmk⟩ := makedirs_ok st.fs (parentDir r.original_path)
        (fun q hq => hCL q (hsubo q hq))
      have hporig : pexists fs1 r.original_path = false :=
        pexists_makedirs_false st.fs (parentDir r.original_path) fs1 r.original_path
          hmk (hR1 r hrm)
          (fun a hap _ => not_prefix_of_parent r.original_path a hap hne8.1)
      have hstep : revertRecordStep root verify st r =
          ({ st with fs := shutil_move fs1 r.new_path r.original_path },
            [Ev.revertedFile r.new_path r.original_path], 1, [], []) := by
        unfold revertRecordStep
        dsimp only
        rw [hpexc]
        simp only [Bool.not_true, Bool.false_eq_true, if_false]
        rw [hwc]
        simp only [Bool.false_eq_true, if_false, List.map_nil, List.nil_append]
        rw [hmk]
        dsimp only
        rw [hporig]
        simp only [Bool.false_eq_true, if_false]
      obtain ⟨nd1, L1, ne1, CL1⟩ :=
        makedirs_invariants CL st.fs fs1 (parentDir r.original_path) hmk hsubo hCLc
          hCLne hnd hL hne hCL
      have hent1 : entryAt fs1 r.new_path = some (Entry.file d s t) :=
        makedirs_preserves st.fs _ fs1 hmk _ _ hcur
      obtain ⟨ndm, Lm, nem, CLm, hdstent, hsrcnone, hsrcpex, hpresm, hnexm⟩ :=
        move_invariants CL fs1 r.new_path r.original_path d s t hCLc nd1 L1
          ne1 CL1 hent1 hporig (hR4 r hrm).2 hsubo hne8.1 hne8.2 (hR4 r hrm).1
      have hR2m : ((r :: rest).map FileRecord.original_path).Nodup := hR2
      rw [List.map_cons] at hR2m
      have horig_notin : r.original_path ∉ rest.map FileRecord.original_path :=
        (List.nodup_cons.mp hR2m).1
      have hR3m : ((r :: rest).map FileRecord.new_path).Nodup := hR3
      rw [List.map_cons] at hR3m
      have hcur_notin : r.new_path ∉ rest.map FileRecord.new_path :=
        (List.nodup_cons.mp hR3m).1
      have htail : ∀ r' ∈ rest, r' ∈ r :: rest :=
        fun r' hr' => List.mem_cons_of_mem r hr'
      have hR0r : ∀ r' ∈ rest, ∃ d' s' t',
          entryAt (shutil_move fs1 r.new_path r.original_path) r'.new_path =
            some (Entry.file d' s' t') ∧
          (r'.file_hash.isSome = true → r'.file_hash = some (sha256 d')) := by
        intro r' hr'
        obtain ⟨d', s', t', hent', hfh'⟩ := hR0 r' (htail r' hr')
        have hne2 : r'.new_path ≠ r.new_path := by
          intro hcontra
          apply hcur_notin
          rw [← hcontra]
          exact List.mem_map_of_mem FileRecord.new_path hr'
        exact ⟨d', s', t',
          hpresm _ _ (makedirs_preserves st.fs _ fs1 hmk _ _ hent') hne2, hfh'⟩
      have hR1r : ∀ r' ∈ rest,
          pexists (shutil_move fs1 r.new_path r.original_path) r'.original_path =
            false := by
        intro r' hr'
        have h0 := hR1 r' (htail r' hr')
        have hql : r'.original_path ≠ [] := (hRne r' (htail r' hr')).1
        have hqCL : r'.original_path ∉ CL := (hR4 r' (htail r' hr')).2
        have h1 : pexists fs1 r'.original_path = false :=
          pexists_makedirs_false_CL CL hCLc st.fs fs1 (parentDir r.original_path) _
            hmk hsubo h0 hqCL hql
        refine hnexm _ h1 ?_
        cases hb : (r'.original_path).isPrefixOf r.original_path with
        | false => rfl
        | true =>
            exfalso
            have hpp : r'.original_path <+: r.original_path :=
              List.isPrefixOf_iff_prefix.mp hb
            by_cases heq2 : r'.original_path = r.original_path
            · apply horig_notin
              rw [← heq2]
              exact List.mem_map_of_mem FileRecord.original_path hr'
            · have hpar : r'.original_path <+: parentDir r.original_path :=
                strict_prefix_parent _ _ hpp heq2 hne8.1
              exact hqCL (hsubo _ (mem_ancestors_of_pref _ _ hpar hql))
      obtain ⟨st', tr', hloop, hsto, hclk, nd', L', ne', CL', hrevd', F1', F2'⟩ :=
        revertLoop_spec root verify CL hCLc hCLne rest
          { st with fs := shutil_move fs1 r.new_path r.original_path }
          hR0r hR1r
          (List.nodup_cons.mp hR2m).2
          (List.nodup_cons.mp hR3m).2
          (fun r' hr' => hR4 r' (htail r' hr'))
          (fun r' hr' => hR5 r' (htail r' hr'))
          (fun r' hr' r'' hr'' => hR6 r' (htail r' hr') r'' (htail r'' hr''))
          (fun r' hr' => hRne r' (htail r' hr'))
          ndm Lm nem CLm
      refine ⟨st', [Ev.revertedFile r.new_path r.original_path] ++ tr', ?_, hsto,
        hclk, nd', L', ne', CL', ?_, ?_, ?_⟩
      · unfold revertLoop
        rw [hstep]
        dsimp only
        rw [hloop]
        dsimp only
        rw [List.length_cons, Nat.add_comm]
        simp
      · intro r2 hr2
        rcases List.mem_cons.mp hr2 with hh | ht
        · rw [hh]
          rw [hcur]
          refine F1' r.original_path (Entry.file d s t) hdstent ?_
          exact fun r' hr' => hR6 r hrm r' (htail r' hr')
        · obtain ⟨d', s', t', hent', _⟩ := hR0 r2 (htail r2 ht)
          have hne2 : r2.new_path ≠ r.new_path := by
            intro hcontra
            apply hcur_notin
            rw [← hcontra]
            exact List.mem_map_of_mem FileRecord.new_path ht
          have h2 : entryAt (shutil_move fs1 r.new_path r.original_path)
              r2.new_path = some (Entry.file d' s' t') :=
            hpresm _ _ (makedirs_preserves st.fs _ fs1 hmk _ _ hent') hne2
          exact ((hrevd' r2 ht).trans (h2.trans hent'.symm))
      · intro q e' hq hnot
        have hq1 := makedirs_preserves st.fs _ fs1 hmk q e' hq
        have hq2 := hpresm q e' hq1 (hnot r hrm)
        exact F1' q e' hq2 (fun r' hr' => hnot r' (htail r' hr'))
      · intro q hqne hq hqCL hnopref
        have h1 := pexists_makedirs_false_CL CL hCLc st.fs fs1
          (parentDir r.original_path) q hmk hsubo hq hqCL hqne
        have h2 : pexists (shutil_move fs1 r.new_path r.original_path) q = false :=
          hnexm q h1 (hnopref r hrm)
        exact F2' q hqne h2 hqCL (fun r' hr' => hnopref r' (htail r' hr'))

/-- `folder.rmdir()` (guarded, errors swallowed) never removes a
regular-file entry. -/
lemma rmdir_preserves_entry (fs : FS) (p q : FPath) (e : Entry)
    (hq : entryAt fs q = some e) (hef : isFileEntry e = true) :
    entryAt (rmdirIfEmpty fs p).1 q = some e := by
  unfold rmdirIfEmpty
  by_cases hdir : entryAt fs p = some Entry.dir
  · have hqp : q ≠ p := by
      intro hqp'
      rw [hqp'] at hq
      rw [hdir] at hq
      have he : e = Entry.dir := (Option.some.inj hq).symm
      rw [he] at hef
      simp [isFileEntry] at hef
    cases hch : hasChildren fs p with
    | true =>
        simp only [hdir, hch]
        simp only [decide_True, Bool.not_true, Bool.and_false, Bool.false_eq_true,
          if_false]
        exact hq
    | false =>
        simp only [hdir, hch]
        simp only [decide_True, Bool.not_false, Bool.and_true, if_true]
        refine (entryAt_filter (fun kv => !(kv.1 == p)) fs q ?_).trans hq
        intro kv _ hk
        show (!(kv.1 == p)) = true
        rw [hk]
        simp [hqp]
  · have hcond : (decide (entryAt fs p = some Entry.dir) && !(hasChildren fs p)) =
        false := by
      simp [hdir]
    simp only [hcond, Bool.false_eq_true, if_false]
    exact hq

/-- The counting fold of `cleanup_empty_folders` preserves file entries. -/
lemma cleanupFold_preserves (q0 : FPath) (e : Entry) (hef : isFileEntry e = true) :
    ∀ (paths : List FPath) (fs : FS) (n : Nat),
      entryAt fs q0 = some e →
      entryAt ((paths.foldl
        (fun acc q =>
          ((rmdirIfEmpty acc.1 q).1, acc.2 + (if (rmdirIfEmpty acc.1 q).2 then 1 else 0)))
        (fs, n)).1) q0 = some e
  | [], fs, n, h => h
  | p :: rest, fs, n, h => by
      rw [List.foldl_cons]
      exact cleanupFold_preserves q0 e hef rest _ _
        (rmdir_preserves_entry fs p q0 e h hef)

/-- `backup.cleanup_empty_folders` removes only empty directories: every
regular-file entry survives it untouched. -/
lemma cleanup_preserves_entry (fs : FS) (created : List String) (q : FPath)
    (e : Entry) (hef : isFileEntry e = true) (h : entryAt fs q = some e) :
    entryAt (cleanup_empty_folders fs created).1 q = some e := by
  unfold cleanup_empty_folders
  dsimp only
  exact cleanupFold_preserves q e hef (sortDeepestFirst (created.map splitPath)) fs 0 h

lemma resolveSource_ok_fields (m : Move) (s0 : FPath)
    (h : resolveSource m = .ok s0) : m.relative_path.isSome ∨ m.file.isSome := by
  unfold resolveSource at h
  cases hrp : m.relative_path with
  | some rp => exact Or.inl rfl
  | none =>
      cases hf : m.file with
      | some f => exact Or.inr rfl
      | none =>
          rw [hrp, hf] at h
          exact absurd h (by simp)

/-- What a clean validation (`.ok []`) guarantees for every move: a source
locator, a `new_path`, and an existing source. -/
lemma validateMoves_ok_all (fs : FS) (root : String) :
    ∀ (moves : List Move) (i : Nat) (seen : List (String × Nat)),
      validateMoves fs root moves i seen = .ok [] →
      ∀ m ∈ moves, (m.relative_path.isSome ∨ m.file.isSome) ∧
        m.new_path.isSome = true ∧ pexists fs (resolvedSrc m) = true
  | [], _, _, _ => fun m hm => absurd hm (List.not_mem_nil m)
  | mv :: rest, i, seen, h => by
      unfold validateMoves at h
      cases hres : resolveSource mv with
      | error e => rw [hres] at h; exact absurd h (by simp)
      | ok src =>
          rw [hres] at h
          dsimp only at h
          cases hrec : validateMoves fs root rest (i + 1)
              ((mv.new_path.getD "", i) :: seen) with
          | error e => rw [hrec] at h; exact absurd h (by simp)
          | ok restIssues =>
              rw [hrec] at h
              dsimp only at h
              have hl := Except.ok.inj h
              obtain ⟨hl3, hD⟩ := List.append_eq_nil.mp hl
              obtain ⟨hl4, _⟩ := List.append_eq_nil.mp hl3
              obtain ⟨hA, hB⟩ := List.append_eq_nil.mp hl4
              rw [hD] at hrec
              have ih := validateMoves_ok_all fs root rest (i + 1)
                ((mv.new_path.getD "", i) :: seen) hrec
              intro m hm
              rcases List.mem_cons.mp hm with hh | ht
              · rw [hh]
                refine ⟨resolveSource_ok_fields mv src hres, ?_, ?_⟩
                · cases hnp : mv.new_path with
                  | some np => rfl
                  | none =>
                      exfalso
                      unfold fieldIssues at hA
                      rw [hnp] at hA
                      simp at hA
                · cases hpb : pexists fs src with
                  | true =>
                      rw [← resolveSource_ok_eq mv src hres]
                      exact hpb
                  | false =>
                      rw [hpb] at hB
                      simp at hB
              · exact ih m ht

lemma mem_targetClosure (plan : Plan) (t a : FPath) (ht : t ∈ moveTargets plan)
    (ha : a ∈ ancestors t) : a ∈ targetClosure plan := by
  unfold targetClosure
  exact mem_join_ancestors _ t a ht ha

lemma targets_folder (plan : Plan) (f : String) (hf : f ∈ plan.folders.getD []) :
    splitPath f ∈ moveTargets plan := by
  unfold moveTargets
  exact List.mem_append.mpr (Or.inl (List.mem_append.mpr
    (Or.inl (List.mem_map_of_mem splitPath hf))))

lemma targets_dest (plan : Plan) (moves : List Move) (hm : plan.moves = some moves)
    (m : Move) (hmem : m ∈ moves) :
    parentDir (destPath m) ∈ moveTargets plan := by
  unfold moveTargets
  rw [hm]
  exact List.mem_append.mpr (Or.inl (List.mem_append.mpr
    (Or.inr (List.mem_map_of_mem _ hmem))))

lemma targets_src (plan : Plan) (moves : List Move) (hm : plan.moves = some moves)
    (m : Move) (hmem : m ∈ moves) :
    parentDir (resolvedSrc m) ∈ moveTargets plan := by
  unfold moveTargets
  rw [hm]
  exact List.mem_append.mpr (Or.inr (List.mem_map_of_mem _ hmem))

/-- **C1** (amended): the round trip holds for non-interfering plans.  For a
plan that validates cleanly on a well-formed tree (`Nodup` keys, files are
leaves, nonempty keys) whose moves have pairwise-distinct sources and
pairwise-distinct fresh destinations lying outside the prefix closure of the
touched directories (which in turn holds no files), executing with
`dry_run = false` and then reverting from the manifest it wrote succeeds
move-for-move: every move is performed, every record is reverted with zero
failures and zero integrity warnings, and every moved file is restored to its
original relative path with its entry — in particular its content hash —
identical to before the execution.  (Without these disjointness conditions
the spec's unconditioned round-trip claim fails: see the counterexample,
where a plan moving `b → c` after `c → d` makes the revert loop, processing
records in plan order, collide with its own earlier restoration, lose `c`'s
content from its original path and restore `b` with the wrong content while
still reporting every revert as successful.) -/
theorem c1_round_trip (root : String) (st : St) (plan : Plan) (moves : List Move)
    (verify : Bool)
    (hm : plan.moves = some moves)
    (hval : validate_plan st.fs root plan = .ok [])
    (hsrcfile : ∀ m ∈ moves, isFileAt st.fs (resolvedSrc m) = true)
    (hsmall : ∀ m ∈ moves, statSize st.fs (resolvedSrc m) < BACKUP_HASH_SIZE_LIMIT)
    (hnodup : (st.fs.map Prod.fst).Nodup)
    (hleaves : FilesAreLeaves st.fs)
    (hkeysne : ∀ kv ∈ st.fs, kv.1 ≠ [])
    (hsrcnd : (moves.map resolvedSrc).Nodup)
    (hdstfresh : ∀ m ∈ moves, pexists st.fs (destPath m) = false)
    (hdstnd : (moves.map destPath).Nodup)
    (hdstCL : ∀ m ∈ moves, destPath m ∉ targetClosure plan)
    (hCLfiles : ∀ p ∈ targetClosure plan, isFileAt st.fs p = false)
    (hpne : ∀ m ∈ moves, resolvedSrc m ≠ [] ∧ destPath m ≠ []) :
    ∃ st1 res tr1 st2 res2 tr2,
      perform_file_moves root st plan false =
        (st1, tr1, .ok (.done (decide (0 < moves.length)) res)) ∧
      res.successful_moves = moves.length ∧ res.failed_moves = [] ∧
      revert_organization st1 .main true verify =
        (st2, tr2, .ok (.done (decide (0 < moves.length)) res2)) ∧
      res2.successful_reverts = moves.length ∧ res2.failed_reverts = [] ∧
      res2.integrity_warnings = [] ∧
      ∀ m ∈ moves,
        entryAt st2.fs (resolvedSrc m) = entryAt st.fs (resolvedSrc m) ∧
        calculate_file_hash st2.fs (resolvedSrc m) =
          calculate_file_hash st.fs (resolvedSrc m) := by
  have hCLc := targetClosure_closed plan
  have hCLne := targetClosure_ne plan
  have hvm : validateMoves st.fs root moves 0 [] = .ok [] := by
    unfold validate_plan at hval
    rw [hm] at hval
    exact hval
  have hfacts := validateMoves_ok_all st.fs root moves 0 [] hvm
  have hW0 : ∀ m ∈ moves, resolveSource m = .ok (resolvedSrc m) :=
    fun m hm' => resolveSource_eq_ok m (hfacts m hm').1
  have hW1 : ∀ m ∈ moves, m.new_path.isSome = true :=
    fun m hm' => (hfacts m hm').2.1
  have hentall : ∀ m ∈ moves, ∃ d s t,
      entryAt st.fs (resolvedSrc m) = some (Entry.file d s t) :=
    fun m hm' => isFileAt_true_entry st.fs _ (hsrcfile m hm')
  have hW12 : ∀ m ∈ moves, resolvedSrc m ∉ targetClosure plan := by
    intro m hm' hin
    have h1 := hCLfiles _ hin
    rw [hsrcfile m hm'] at h1
    exact absurd h1 (by simp)
  have hW13 : ∀ m ∈ moves, ∀ m' ∈ moves, destPath m ≠ resolvedSrc m' := by
    intro m hm' m' hm'' heq
    have h1 := hdstfresh m hm'
    obtain ⟨d, s, t, hent⟩ := hentall m' hm''
    have h2 := pexists_of_entryAt_some st.fs _ _ hent
    rw [← heq] at h2
    rw [h1] at h2
    exact absurd h2 (by simp)
  have hW8 : ∀ m ∈ moves, ∀ a ∈ ancestors (parentDir (destPath m)),
      a ∈ targetClosure plan :=
    fun m hm' a ha => mem_targetClosure plan _ a (targets_dest plan moves hm m hm') ha
  have hsrcanc : ∀ m ∈ moves, ∀ a ∈ ancestors (parentDir (resolvedSrc m)),
      a ∈ targetClosure plan :=
    fun m hm' a ha => mem_targetClosure plan _ a (targets_src plan moves hm m hm') ha
  have hmr : manifestRecords st.fs moves =
      .ok (moves.map (fun m => recordFor st.fs (resolvedSrc m) (m.new_path.getD ""))) := by
    rw [manifestRecords_eq st.fs moves
      (fun m hm' => ⟨(hfacts m hm').1, fun _ => (hfacts m hm').2.1⟩)]
    rw [List.filter_eq_self.mpr (fun m hm' => (hfacts m hm').2.2)]
  have hcbm : ∃ st1 M, create_backup_manifest st root plan = .ok (st1, M) ∧
      st1.fs = st.fs ∧ st1.store.manifest = some M ∧
      M.original_state =
        moves.map (fun m => recordFor st.fs (resolvedSrc m) (m.new_path.getD "")) ∧
      M.root_path = root := by
    unfold create_backup_manifest
    rw [hm]
    simp only [Option.getD_some]
    rw [hmr]
    exact ⟨_, _, rfl, rfl, rfl, rfl, rfl⟩
  obtain ⟨st1, M, hcbmEq, hfs1, hman1, hMos, hMroot⟩ := hcbm
  have hsubF : ∀ f ∈ plan.folders.getD [], ∀ a ∈ ancestors (splitPath f),
      a ∈ targetClosure plan :=
    fun f hf a ha => mem_targetClosure plan _ a (targets_folder plan f hf) ha
  obtain ⟨stF, cF, tF, hFL, hFsto, hFclk, ndF, LF, neF, CLF, FpresF, FnexF⟩ :=
    execFoldersLoop_spec (targetClosure plan) hCLc hCLne (plan.folders.getD [])
      st1 [] [] hsubF (by rw [hfs1]; exact hnodup) (by rw [hfs1]; exact hleaves)
      (by rw [hfs1]; exact hkeysne) (by rw [hfs1]; exact hCLfiles)
  have hW2F : ∀ m ∈ moves, ∃ d s t,
      entryAt stF.fs (resolvedSrc m) = some (Entry.file d s t) := by
    intro m hm'
    obtain ⟨d, s, t, he⟩ := hentall m hm'
    exact ⟨d, s, t, FpresF _ _ (by rw [hfs1]; exact he)⟩
  have hW3F : ∀ m ∈ moves, pexists stF.fs (destPath m) = false := by
    intro m hm'
    refine FnexF _ (hpne m hm').2 ?_ (hdstCL m hm')
    rw [hfs1]
    exact hdstfresh m hm'
  obtain ⟨stM, trM, hML, hMsto, hMclk, ndM, LM, neM, CLM, hmovedM, F1M, F2M⟩ :=
    execMovesLoop_spec root (targetClosure plan) hCLc hCLne moves stF hW0 hW1
      hW2F hW3F hsrcnd hdstnd hdstCL hW8 hW12 hW13 hpne ndF LF neF CLF
  have hEAM : ∃ stf res, execAfterManifest root st1 plan false =
      (stf, tF ++ trM, .ok (decide (0 < moves.length), res)) ∧
      stf.fs = stM.fs ∧ stf.store.manifest = st1.store.manifest ∧
      res.successful_moves = moves.length ∧ res.failed_moves = [] := by
    unfold execAfterManifest
    rw [hFL]
    dsimp only
    simp only [hm, Option.getD_some]
    rw [hML]
    dsimp only
    simp only [Bool.false_eq_true, if_false]
    refine ⟨_, _, rfl, rfl, ?_, rfl, rfl⟩
    show stM.store.manifest = st1.store.manifest
    rw [hMsto, hFsto]
  obtain ⟨stf, res, hEAMeq, hfs, hman2, hresS, hresF⟩ := hEAM
  have hperf : perform_file_moves root st plan false =
      (stf, Ev.wroteManifest M :: (tF ++ trM),
        .ok (.done (decide (0 < moves.length)) res)) := by
    unfold perform_file_moves
    rw [hval]
    dsimp only
    rw [if_pos rfl]
    simp only [Bool.false_eq_true, if_false]
    rw [hcbmEq]
    dsimp only
    rw [hEAMeq]
    rfl
  have hmanf : stf.store.manifest = some M := by
    rw [hman2]
    exact hman1
  have hR0r : ∀ r ∈ M.original_state, ∃ d s t,
      entryAt stf.fs r.new_path = some (Entry.file d s t) ∧
      (r.file_hash.isSome = true → r.file_hash = some (sha256 d)) := by
    rw [hMos]
    intro r hr
    rw [List.mem_map] at hr
    obtain ⟨m, hm', hrm⟩ := hr
    obtain ⟨d, s, t, he⟩ := hentall m hm'
    have heF : entryAt stF.fs (resolvedSrc m) = some (Entry.file d s t) :=
      FpresF _ _ (by rw [hfs1]; exact he)
    have hfhm : (recordFor st.fs (resolvedSrc m) (m.new_path.getD "")).file_hash =
        some (sha256 d) := by
      show (if isFileAt st.fs (resolvedSrc m) then
          calculate_file_hash st.fs (resolvedSrc m) else none) = some (sha256 d)
      rw [hsrcfile m hm']
      simp only [if_true]
      unfold calculate_file_hash
      rw [he]
    refine ⟨d, s, t, ?_, ?_⟩
    · rw [← hrm]
      show entryAt stf.fs (destPath m) = some (Entry.file d s t)
      rw [hfs]
      rw [(hmovedM m hm').1]
      exact heF
    · rw [← hrm]
      exact fun _ => hfhm
  have hR1r : ∀ r ∈ M.original_state, pexists stf.fs r.original_path = false := by
    rw [hMos]
    intro r hr
    rw [List.mem_map] at hr
    obtain ⟨m, hm', hrm⟩ := hr
    rw [← hrm]
    show pexists stf.fs (resolvedSrc m) = false
    rw [hfs]
    exact (hmovedM m hm').2
  have hR2r : (M.original_state.map FileRecord.original_path).Nodup := by
    rw [hMos, List.map_map]
    exact hsrcnd
  have hR3r : (M.original_state.map FileRecord.new_path).Nodup := by
    rw [hMos, List.map_map]
    exact hdstnd
  have hR4r : ∀ r ∈ M.original_state,
      r.new_path ∉ targetClosure plan ∧ r.original_path ∉ targetClosure plan := by
    rw [hMos]
    intro r hr
    rw [List.mem_map] at hr
    obtain ⟨m, hm', hrm⟩ := hr
    rw [← hrm]
    exact ⟨hdstCL m hm', hW12 m hm'⟩
  have hR5r : ∀ r ∈ M.original_state,
      ∀ a ∈ ancestors (parentDir r.original_path), a ∈ targetClosure plan := by
    rw [hMos]
    intro r hr
    rw [List.mem_map] at hr
    obtain ⟨m, hm', hrm⟩ := hr
    rw [← hrm]
    exact hsrcanc m hm'
  have hR6r : ∀ r ∈ M.original_state, ∀ r' ∈ M.original_state,
      r.original_path ≠ r'.new_path := by
    rw [hMos]
    intro r hr r' hr'
    rw [List.mem_map] at hr hr'
    obtain ⟨m, hm', hrm⟩ := hr
    obtain ⟨m', hm'', hrm'⟩ := hr'
    rw [← hrm, ← hrm']
    exact fun heq => hW13 m' hm'' m hm' heq.symm
  have hRner : ∀ r ∈ M.original_state, r.original_path ≠ [] ∧ r.new_path ≠ [] := by
    rw [hMos]
    intro r hr
    rw [List.mem_map] at hr
    obtain ⟨m, hm', hrm⟩ := hr
    rw [← hrm]
    exact ⟨(hpne m hm').1, (hpne m hm').2⟩
  obtain ⟨stR, trR, hRL, hRsto, hRclk, ndR, LR, neR, CLR, hrevd, F1R, F2R⟩ :=
    revertLoop_spec M.root_path verify (targetClosure plan) hCLc hCLne
      M.original_state stf hR0r hR1r hR2r hR3r hR4r hR5r hR6r hRner
      (by rw [hfs]; exact ndM) (by rw [hfs]; exact LM)
      (by rw [hfs]; exact neM) (by rw [hfs]; exact CLM)
  have hsa : storeAt stf.store MSrc.main = some M := by
    unfold storeAt
    exact hmanf
  have harch : storeAt ({ stR with
      fs := (cleanup_empty_folders stR.fs M.folders_created).1 }).store MSrc.main =
      some M := by
    unfold storeAt
    show stR.store.manifest = some M
    rw [hRsto]
    exact hmanf
  have hrev : ∃ st2, revert_organization stf .main true verify =
      (st2, trR ++ [Ev.archivedManifest stR.clock],
        .ok (.done (decide (0 < M.original_state.length))
          { successful_reverts := M.original_state.length,
            failed_reverts := [], integrity_warnings := [],
            cleanup_count := (cleanup_empty_folders stR.fs M.folders_created).2 })) ∧
      st2.fs = (cleanup_empty_folders stR.fs M.folders_created).1 := by
    unfold revert_organization
    rw [hsa]
    dsimp only
    simp only [Bool.not_true, Bool.false_eq_true, if_false]
    rw [hRL]
    dsimp only
    unfold archive_manifest
    rw [harch]
    dsimp only
    exact ⟨_, rfl, rfl⟩
  obtain ⟨st2v, hrevEq, hst2fs⟩ := hrev
  have hlen : M.original_state.length = moves.length := by
    rw [hMos]
    exact List.length_map _ _
  rw [hlen] at hrevEq
  refine ⟨stf, res, Ev.wroteManifest M :: (tF ++ trM), st2v, _,
    trR ++ [Ev.archivedManifest stR.clock], hperf, hresS, hresF, hrevEq,
    rfl, rfl, rfl, ?_⟩
  intro m hm'
  obtain ⟨d, s, t, he⟩ := hentall m hm'
  have hmemr : recordFor st.fs (resolvedSrc m) (m.new_path.getD "") ∈
      M.original_state := by
    rw [hMos]
    exact List.mem_map_of_mem _ hm'
  have h1 := hrevd _ hmemr
  have heF : entryAt stF.fs (resolvedSrc m) = some (Entry.file d s t) :=
    FpresF _ _ (by rw [hfs1]; exact he)
  have h2 : entryAt stf.fs (destPath m) = some (Entry.file d s t) := by
    rw [hfs]
    rw [(hmovedM m hm').1]
    exact heF
  have hentR : entryAt stR.fs (resolvedSrc m) = some (Entry.file d s t) :=
    h1.trans h2
  have hcl : entryAt (cleanup_empty_folders stR.fs M.folders_created).1
      (resolvedSrc m) = some (Entry.file d s t) :=
    cleanup_preserves_entry stR.fs M.folders_created (resolvedSrc m)
      (Entry.file d s t) rfl hentR
  constructor
  · rw [hst2fs, hcl, he]
  · unfold calculate_file_hash
    rw [hst2fs, hcl, he]

/-- Overlapping-plan state: two small files (far below the hash threshold). -/
def fsC1c : FS := [(["b.txt"], Entry.file 1 5 0), (["c.txt"], Entry.file 2 5 0)]

def stC1c : St := { fs := fsC1c, store := emptyStore, clock := 0 }

/-- First move: `c.txt → d.txt`. -/
def mvC1a : Move :=
  { file := some "c.txt", relative_path := some "c.txt",
    new_path := some "d.txt", reason := some "r" }

/-- Second move: `b.txt → c.txt`, onto the slot the first move vacates. -/
def mvC1b : Move :=
  { file := some "b.txt", relative_path := some "b.txt",
    new_path := some "c.txt", reason := some "r" }

def planC1c : Plan := { folders := none, moves := some [mvC1a, mvC1b] }

/-- C1 counterexample: a cleanly-validating plan whose sources are all far
below the hash threshold — `c.txt → d.txt` then `b.txt → c.txt` — executes
fully, but the revert loop, replaying records in plan order, restores `d.txt`
to `c.txt` first and then finds `c.txt` occupied when restoring the second
record: the round trip ends with `b.txt` holding the wrong content and
`c.txt` missing entirely, while the revert still reports two successes and
zero failures.  This refutes the unconditioned round-trip property. -/
theorem c1_counterexample :
    (∀ m ∈ [mvC1a, mvC1b],
      statSize stC1c.fs (resolvedSrc m) < BACKUP_HASH_SIZE_LIMIT) ∧
    validate_plan stC1c.fs "/r" planC1c = .ok [] ∧
    dataAt stC1c.fs ["b.txt"] = some 1 ∧
    dataAt stC1c.fs ["c.txt"] = some 2 ∧
    dataAt (revert_organization
        (perform_file_moves "/r" stC1c planC1c false).1 .main true true).1.fs
      ["b.txt"] = some 2 ∧
    dataAt (revert_organization
        (perform_file_moves "/r" stC1c planC1c false).1 .main true true).1.fs
      ["c.txt"] = none ∧
    (revert_organization
        (perform_file_moves "/r" stC1c planC1c false).1 .main true true).2.2 =
      .ok (.done true
        { successful_reverts := 2, failed_reverts := [],
          integrity_warnings :=
            [("/r/c.txt", "File has been modified since organization")],
          cleanup_count := 0 }) :=
  ⟨by decide, rfl, rfl, rfl, rfl, rfl, rfl⟩

/-- Disjoint one-move witness state for the amended round trip. -/
def fsC1w : FS := [(["a.txt"], Entry.file 1 2 3)]

def stC1w : St := { fs := fsC1w, store := emptyStore, clock := 0 }

def mvC1w : Move :=
  { file := some "a.txt", relative_path := some "a.txt",
    new_path := some "W/a.txt", reason := some "r" }

def planC1w : Plan := { folders := some ["W"], moves := some [mvC1w] }

/-- C1 witness: the amended theorem applied to the concrete one-move plan
`a.txt → W/a.txt`, every hypothesis discharged by evaluation. -/
theorem c1_witness :
    ∃ st1 res tr1 st2 res2 tr2,
      perform_file_moves "/r" stC1w planC1w false =
        (st1, tr1, .ok (.done (decide (0 < ([mvC1w] : List Move).length)) res)) ∧
      res.successful_moves = ([mvC1w] : List Move).length ∧
      res.failed_moves = [] ∧
      revert_organization st1 .main true true =
        (st2, tr2, .ok (.done (decide (0 < ([mvC1w] : List Move).length)) res2)) ∧
      res2.successful_reverts = ([mvC1w] : List Move).length ∧
      res2.failed_reverts = [] ∧
      res2.integrity_warnings = [] ∧
      ∀ m ∈ [mvC1w],
        entryAt st2.fs (resolvedSrc m) = entryAt stC1w.fs (resolvedSrc m) ∧
        calculate_file_hash st2.fs (resolvedSrc m) =
          calculate_file_hash stC1w.fs (resolvedSrc m) :=
  c1_round_trip "/r" stC1w planC1w [mvC1w] true rfl rfl (by decide) (by decide)
    (by decide) (by unfold FilesAreLeaves; decide) (by decide) (by decide)
    (by decide) (by decide) (by decide) (by decide) (by decide)

end FileOrganizer
